import Mathlib

/-!
# Verification of the crawl core of `themanufacturer` spider

Shallow embedding of `src/themanufacturer/themanufacturer/spiders/tm_sections.py`
(and the library functions it composes over) in Lean 4, together with theorems
settling the specification's claims.

Strings are modeled as Lean `String` / `List Char`; Python string operations
(`str.strip`, `str.replace`, the two `re.sub` calls of `to_plain_text`, the
specific regular expression used by `w3lib.html.remove_tags`, and
`w3lib.html.replace_escape_chars` with `which_ones=("&nbsp;",)` and its default
`replace_by=""`) are embedded as executable functions on `List Char`.
-/

/-- The Python whitespace characters stripped by `str.strip()` (ASCII part,
which is all that the site's extracted text exercises). -/
def isPyWS (c : Char) : Bool :=
  c = ' ' || c = '\t' || c = '\n' || c = '\r' || c = '\x0b' || c = '\x0c'

/-- Horizontal whitespace matched by the regex `[ \t]` in `to_plain_text`. -/
def isHT (c : Char) : Bool := c = ' ' || c = '\t'

/-- Drop trailing characters satisfying `isPyWS` (the right half of `str.strip()`). -/
def dropTrailingWS (l : List Char) : List Char :=
  ((l.reverse).dropWhile isPyWS).reverse

/-- Python `str.strip()` on a character list. -/
def pyStrip (l : List Char) : List Char :=
  dropTrailingWS (l.dropWhile isPyWS)

/-- Python `str.strip()` on a `String`. -/
def pyStripStr (s : String) : String := String.mk (pyStrip s.data)

/-- A character admissible in the tag-name group `([^ >/]+)` of the regex
`</?([^ >/]+).*?>` that `w3lib.html.remove_tags` uses (with `re.DOTALL`). -/
def isTagClassChar (c : Char) : Bool := !(c = ' ' || c = '>' || c = '/')

/-- Split at the first `'>'`: returns the remainder after it, if any.
This is where the lazy `.*?>` of the tag regex ends a match. -/
def afterGt : List Char → Option (List Char)
  | [] => none
  | c :: l => if c = '>' then some l else afterGt l

/-- Regex fragment `([^ >/]+).*?>`: at least one tag-class character, then the
first subsequent `'>'`; returns the remainder after the match. -/
def tagBody : List Char → Option (List Char)
  | [] => none
  | c :: l => if isTagClassChar c then afterGt l else none

/-- Given the characters after a literal `'<'`, decide whether the tag regex
`</?([^ >/]+).*?>` matches here, returning the remainder after the match.
`/?` consumes at most one slash; if a slash is present the no-slash
alternative would place `'/'` in the class group and fail, so consuming it
is complete. -/
def tagMatch : List Char → Option (List Char)
  | [] => none
  | c :: l => if c = '/' then tagBody l else tagBody (c :: l)

/-- One fuelled step list of `re.sub('</?([^ >/]+).*?>', '', text)` as performed
by `w3lib.html.remove_tags` with empty `which_ones`/`keep` (every matched tag is
removed, scanning left to right, resuming after each match). -/
def removeTagsGo : Nat → List Char → List Char
  | 0, l => l
  | _ + 1, [] => []
  | fuel + 1, c :: r =>
    if c = '<' then
      match tagMatch r with
      | some rem => removeTagsGo fuel rem
      | none => '<' :: removeTagsGo fuel r
    else c :: removeTagsGo fuel r

/-- `w3lib.html.remove_tags(text)`: strip all markup tags. -/
def removeTags (l : List Char) : List Char := removeTagsGo l.length l

/-- The characters of the literal escape sequence `"&nbsp;"`. -/
def nbspChars : List Char := ['&', 'n', 'b', 's', 'p', ';']

/-- Does `p` occur at the start of `l`? (List-level `str.startswith`.) -/
def listStarts : List Char → List Char → Bool
  | [], _ => true
  | _ :: _, [] => false
  | a :: p, b :: l => a = b && listStarts p l

/-- One fuelled step list of Python `text.replace("&nbsp;", "")`: scan left to
right; at an occurrence of `"&nbsp;"` drop its six characters and resume after
them (a spliced-together new occurrence is not rescanned). -/
def removeNbspGo : Nat → List Char → List Char
  | 0, l => l
  | _ + 1, [] => []
  | fuel + 1, c :: l =>
    if listStarts nbspChars (c :: l) then removeNbspGo fuel (l.drop 5)
    else c :: removeNbspGo fuel l

/-- `w3lib.html.replace_escape_chars(text, which_ones=("&nbsp;",))`, whose
default `replace_by` is the empty string: Python `text.replace("&nbsp;", "")`. -/
def removeNbsp (l : List Char) : List Char := removeNbspGo l.length l

/-- Does the list contain an occurrence of `"&nbsp;"`? -/
def hasNbsp : List Char → Bool
  | [] => false
  | c :: l => listStarts nbspChars (c :: l) || hasNbsp l

/-- Does the list start with a space or tab? -/
def nextHT : List Char → Bool
  | d :: _ => isHT d
  | [] => false

/-- `re.sub(r"[ \t]+", " ", text)`: collapse each run of spaces/tabs to a
single space. A run character is dropped while another run character follows;
the last one of a run is emitted as `' '`. -/
def collapseSP : List Char → List Char
  | [] => []
  | c :: l =>
    if isHT c then
      (if nextHT l then collapseSP l else ' ' :: collapseSP l)
    else c :: collapseSP l

/-- Does the list start with two newline characters? (Used to detect that a
newline belongs to a longer run with at least two more to come.) -/
def nl2 : List Char → Bool
  | [] => false
  | [_] => false
  | a :: b :: _ => a = '\n' && b = '\n'

/-- `re.sub(r"\n{3,}", "\n\n", text)`: collapse each run of three or more
newlines to exactly two (a newline followed by at least two more is dropped,
so each long run keeps its last two newlines). -/
def collapseNL : List Char → List Char
  | [] => []
  | c :: l =>
    if c = '\n' then
      if nl2 l then collapseNL l else '\n' :: collapseNL l
    else c :: collapseNL l

/-- `to_plain_text(html)` from `tm_sections.py`: empty input is returned as is
(`if not html: return ""`); otherwise strip all tags, delete every literal
`"&nbsp;"`, `str.strip()`, collapse horizontal whitespace runs to one space,
and collapse runs of three or more newlines to two. -/
def to_plain_text (html : String) : String :=
  if html = "" then ""
  else String.mk (collapseNL (collapseSP (pyStrip (removeNbsp (removeTags html.data)))))

/-! ## Date parser (`strip_ordinals`, `parse_date`) -/

/-- Is the two-character sequence one of the ordinal suffixes `st|nd|rd|th`,
case-insensitively (the regex uses `re.IGNORECASE`)? -/
def isOrdSuffix (a b : Char) : Bool :=
  (a.toLower = 's' && b.toLower = 't') || (a.toLower = 'n' && b.toLower = 'd') ||
  (a.toLower = 'r' && b.toLower = 'd') || (a.toLower = 't' && b.toLower = 'h')

/-- `re.sub(r"(\d{1,2})(st|nd|rd|th)", r"\1", s, flags=re.IGNORECASE)`:
left-to-right scan; at a digit, try two digits then an ordinal suffix, falling
back to one digit then a suffix (which, after a second digit, can never
succeed because the suffix would have to start with that digit); on a match
the digits are kept, the suffix is skipped, and scanning resumes after it. -/
def stripOrdGo : Nat → List Char → List Char
  | 0, l => l
  | _ + 1, [] => []
  | fuel + 1, c :: l =>
    if c.isDigit then
      match l with
      | d :: a :: b :: r =>
        if d.isDigit then
          (if isOrdSuffix a b then c :: d :: stripOrdGo fuel r
           else c :: stripOrdGo fuel l)
        else
          (if isOrdSuffix d a then c :: stripOrdGo fuel (b :: r)
           else c :: stripOrdGo fuel l)
      | [d, a] =>
        if !d.isDigit && isOrdSuffix d a then [c]
        else c :: stripOrdGo fuel l
      | _ => c :: stripOrdGo fuel l
    else c :: stripOrdGo fuel l

/-- See `stripOrdGo`; the fuel `l.length` always suffices. -/
def strip_ordinalsL (l : List Char) : List Char := stripOrdGo l.length l

/-- `strip_ordinals(s)` from `tm_sections.py`. -/
def strip_ordinals (s : String) : String := String.mk (strip_ordinalsL s.data)

/-- Python `s.replace(",", "")`. -/
def removeCommas (l : List Char) : List Char := l.filter (fun c => c ≠ ',')

/-- A calendar date as built by `datetime.date`. -/
structure PyDate where
  year : Nat
  month : Nat
  day : Nat
deriving DecidableEq, Repr

/-- `date` comparison `<` (lexicographic on year, month, day). -/
def pyDateLt (a b : PyDate) : Bool :=
  decide (a.year < b.year ∨ (a.year = b.year ∧
    (a.month < b.month ∨ (a.month = b.month ∧ a.day < b.day))))

/-- Gregorian leap-year rule used by `datetime`. -/
def isLeapYear (y : Nat) : Bool :=
  y % 4 = 0 && (y % 100 ≠ 0 || y % 400 = 0)

/-- Days in a month, as validated by the `datetime.date` constructor. -/
def daysInMonth (y m : Nat) : Nat :=
  if m = 2 then (if isLeapYear y then 29 else 28)
  else if m = 4 || m = 6 || m = 9 || m = 11 then 30
  else 31

/-- The `datetime.date(y, m, d)` constructor: `ValueError` (modeled as `none`)
outside `MINYEAR..MAXYEAR` or outside the days of the month. -/
def mkPyDate (y m d : Nat) : Option PyDate :=
  if 1 ≤ y ∧ y ≤ 9999 ∧ 1 ≤ m ∧ m ≤ 12 ∧ 1 ≤ d ∧ d ≤ daysInMonth y m then
    some ⟨y, m, d⟩
  else none

/-- Match a literal (already lowercase) word against the input,
case-insensitively (strptime compiles its regex with `re.IGNORECASE`);
returns the remainder. -/
def matchLit : List Char → List Char → Option (List Char)
  | [], l => some l
  | _ :: _, [] => none
  | c :: cs, x :: xs => if x.toLower = c then matchLit cs xs else none

/-- Try a list of (lowercase name, month number) alternatives in order,
as the compiled alternation of `%b`/`%B` does. -/
def matchMonth : List (List Char × Nat) → List Char → Option (Nat × List Char)
  | [], _ => none
  | (w, n) :: rest, l =>
    match matchLit w l with
    | some r => some (n, r)
    | none => matchMonth rest l

/-- English abbreviated month names, the `%b` alternation of `strptime` in the
C locale. -/
def monthAbbrNames : List (List Char × Nat) :=
  [(['j','a','n'], 1), (['f','e','b'], 2), (['m','a','r'], 3), (['a','p','r'], 4),
   (['m','a','y'], 5), (['j','u','n'], 6), (['j','u','l'], 7), (['a','u','g'], 8),
   (['s','e','p'], 9), (['o','c','t'], 10), (['n','o','v'], 11), (['d','e','c'], 12)]

/-- English full month names, the `%B` alternation of `strptime`. -/
def monthFullNames : List (List Char × Nat) :=
  [(['j','a','n','u','a','r','y'], 1), (['f','e','b','r','u','a','r','y'], 2),
   (['m','a','r','c','h'], 3), (['a','p','r','i','l'], 4), (['m','a','y'], 5),
   (['j','u','n','e'], 6), (['j','u','l','y'], 7), (['a','u','g','u','s','t'], 8),
   (['s','e','p','t','e','m','b','e','r'], 9), (['o','c','t','o','b','e','r'], 10),
   (['n','o','v','e','m','b','e','r'], 11), (['d','e','c','e','m','b','e','r'], 12)]

/-- `%d` as two digits: the regex alternatives `3[01]|[12]\d|0[1-9]` accept
exactly the two-digit strings with value 1..31. -/
def matchDay2 : List Char → Option (Nat × List Char)
  | a :: b :: l =>
    if a.isDigit && b.isDigit then
      let v := 10 * (a.toNat - 48) + (b.toNat - 48)
      if 1 ≤ v ∧ v ≤ 31 then some (v, l) else none
    else none
  | _ => none

/-- `%d` as a single digit: the regex alternative `[1-9]`. -/
def matchDay1 : List Char → Option (Nat × List Char)
  | a :: l =>
    if a.isDigit && a ≠ '0' then some (a.toNat - 48, l) else none
  | _ => none

/-- Literal whitespace in a `strptime` format becomes `\s+`: at least one
whitespace character, consumed greedily (the following token never starts
with whitespace, so maximal munch is complete). -/
def matchWS : List Char → Option (List Char)
  | c :: l => if isPyWS c then some (l.dropWhile isPyWS) else none
  | [] => none

/-- `%Y`: exactly four digits. -/
def matchYear : List Char → Option (Nat × List Char)
  | a :: b :: c :: d :: l =>
    if a.isDigit && b.isDigit && c.isDigit && d.isDigit then
      some (1000 * (a.toNat - 48) + 100 * (b.toNat - 48) + 10 * (c.toNat - 48)
            + (d.toNat - 48), l)
    else none
  | _ => none

/-- After the day of a `"%d month %Y"` format: whitespace, month, whitespace,
year, end of input (strptime raises on unconverted trailing data). -/
def matchTailMY (month : List (List Char × Nat)) (d : Nat) (l : List Char) :
    Option (Nat × Nat × Nat) :=
  (matchWS l).bind fun r =>
    (matchMonth month r).bind fun (m, r) =>
      (matchWS r).bind fun r =>
        (matchYear r).bind fun (y, r) =>
          if r = [] then some (d, m, y) else none

/-- Formats `"%d %b %Y"` / `"%d %B %Y"`: day first. The two-digit day
alternatives are tried before the one-digit one, backtracking into the rest
of the format. Returns (day, month, year). -/
def matchDMY (month : List (List Char × Nat)) (l : List Char) :
    Option (Nat × Nat × Nat) :=
  match matchDay2 l with
  | some (d, r) =>
    match matchTailMY month d r with
    | some v => some v
    | none => (matchDay1 l).bind fun (d, r) => matchTailMY month d r
  | none => (matchDay1 l).bind fun (d, r) => matchTailMY month d r

/-- After the month of a `"month %d %Y"` format: whitespace, day (two digits
preferred, then one), whitespace, year, end of input. -/
def matchTailDY (m : Nat) (l : List Char) : Option (Nat × Nat × Nat) :=
  (matchWS l).bind fun r =>
    let tail2 := fun (d : Nat) (r2 : List Char) =>
      (matchWS r2).bind fun r3 =>
        (matchYear r3).bind fun (y, r4) =>
          if r4 = [] then some (d, m, y) else none
    match matchDay2 r with
    | some (d, r2) =>
      match tail2 d r2 with
      | some v => some v
      | none => (matchDay1 r).bind fun (d, r2) => tail2 d r2
    | none => (matchDay1 r).bind fun (d, r2) => tail2 d r2

/-- Formats `"%b %d %Y"` / `"%B %d %Y"`: month first. -/
def matchMDY (month : List (List Char × Nat)) (l : List Char) :
    Option (Nat × Nat × Nat) :=
  (matchMonth month l).bind fun (m, r) => matchTailDY m r

/-- Try the four formats in order; a regex match whose values fail the
`datetime.date` constructor (`ValueError`) falls through to the next format,
exactly as the `try/except` loop of `parse_date` does. -/
def tryFormats : List (List Char → Option (Nat × Nat × Nat)) → List Char →
    Option PyDate
  | [], _ => none
  | f :: fs, l =>
    match f l with
    | some (d, m, y) =>
      match mkPyDate y m d with
      | some dt => some dt
      | none => tryFormats fs l
    | none => tryFormats fs l

/-- `parse_date(date_str)` from `tm_sections.py`: `None` for falsy input,
otherwise strip, drop ordinal suffixes, remove commas, and try the formats
`"%d %b %Y"`, `"%d %B %Y"`, `"%b %d %Y"`, `"%B %d %Y"` in order. -/
def parse_date (s : String) : Option PyDate :=
  if s = "" then none
  else
    let t := removeCommas (strip_ordinalsL (pyStrip s.data))
    tryFormats
      [matchDMY monthAbbrNames, matchDMY monthFullNames,
       matchMDY monthAbbrNames, matchMDY monthFullNames] t

/-! ## Seen-URL Ledger (`SeenStore`)

The sqlite table `seen (url TEXT PRIMARY KEY, first_seen TEXT)` is modeled as
a list of rows in insertion order; `INSERT OR IGNORE` leaves the table
unchanged when the key is present, and `CREATE TABLE IF NOT EXISTS` preserves
the rows of an existing backing file. The `utcnow` timestamp is passed in as
a parameter. -/

structure SeenStore where
  rows : List (String × String)
deriving DecidableEq, Repr

/-- `SeenStore.has(url)`: `SELECT 1 FROM seen WHERE url = ?` finds a row. -/
def SeenStore.has (s : SeenStore) (url : String) : Bool :=
  s.rows.any (fun row => row.1 = url)

/-- `SeenStore.add(url)`: `INSERT OR IGNORE INTO seen(url, first_seen)` with
the current timestamp, then commit. -/
def SeenStore.add (s : SeenStore) (url now : String) : SeenStore :=
  if s.has url then s else ⟨s.rows ++ [(url, now)]⟩

/-- `SeenStore.__init__`: connect to the backing file (its persisted table, if
any) and run `CREATE TABLE IF NOT EXISTS`, which keeps existing rows. -/
def openStore : Option SeenStore → SeenStore
  | some s => s
  | none => ⟨[]⟩

/-! ## Link resolver (`absolutize`, `is_internal`) -/

/-- A character allowed in a URL scheme by `urllib.parse` (`a-zA-Z0-9+-.`). -/
def isSchemeChar (c : Char) : Bool :=
  c.isAlpha || c.isDigit || c = '+' || c = '-' || c = '.'

/-- The `netloc` component computed by `urllib.parse.urlparse`: strip a valid
`scheme:` prefix, then, if the remainder starts with `//`, the authority runs
up to the next `/`, `?` or `#`; otherwise the netloc is empty. -/
def pyNetloc (url : String) : String :=
  let l := url.data
  let pre := l.takeWhile (fun c => c ≠ ':')
  let schemeOk : Bool :=
    decide (pre.length < l.length) && !pre.isEmpty && pre.all isSchemeChar &&
      (match pre with | c :: _ => c.isAlpha | [] => false)
  let rest := if schemeOk then l.drop (pre.length + 1) else l
  match rest with
  | '/' :: '/' :: r =>
    String.mk (r.takeWhile (fun c => c ≠ '/' && c ≠ '?' && c ≠ '#'))
  | _ => ""

/-- The module-level `TM_DOMAINS` set. -/
def TM_DOMAINS : List String := ["themanufacturer.com", "www.themanufacturer.com"]

/-- `netloc.endswith(d)` on character lists. -/
def listEndsWith (l suffix : List Char) : Bool :=
  listStarts suffix.reverse l.reverse

/-- `is_internal(url)` from `tm_sections.py`: the lower-cased netloc ends with
one of the configured domain suffixes. -/
def is_internal (url : String) : Bool :=
  TM_DOMAINS.any (fun d =>
    listEndsWith ((pyNetloc url).data.map Char.toLower) d.data)

/-- `absolutize(base_url, href)` from `tm_sections.py`: `None` for a falsy
href, otherwise `urllib.parse.urljoin`. The stdlib `urljoin` itself is kept
abstract and supplied as a function parameter. -/
def absolutize (urljoin : String → String → String) (base href : String) :
    Option String :=
  if href = "" then none else some (urljoin base href)

/-! ## Python `or` / truthiness helpers -/

/-- Truthiness of an optional string: `None` and `""` are falsy. -/
def optTruthy : Option String → Bool
  | some s => s ≠ ""
  | none => false

/-- Python `a or b` on optional strings: `a` if truthy, else `b`. -/
def pyOr (a b : Option String) : Option String :=
  if optTruthy a then a else b

/-- Python `x if t else None` where `t` is the truthiness of the string `t0`:
used for `title.strip() if title else None` and friends. -/
def truthyStrip : Option String → Option String
  | some s => if s = "" then none else some (pyStripStr s)
  | none => none

/-! ## Spider construction (`TMSectionsSpider.__init__`) -/

/-- `datetime.date.fromisoformat`: strict `YYYY-MM-DD`, `ValueError` (modeled
as `none`) otherwise. -/
def fromisoformat (s : String) : Option PyDate :=
  match s.data with
  | [y1, y2, y3, y4, '-', m1, m2, '-', d1, d2] =>
    if y1.isDigit && y2.isDigit && y3.isDigit && y4.isDigit &&
       m1.isDigit && m2.isDigit && d1.isDigit && d2.isDigit then
      mkPyDate (1000 * (y1.toNat - 48) + 100 * (y2.toNat - 48)
                + 10 * (y3.toNat - 48) + (y4.toNat - 48))
               (10 * (m1.toNat - 48) + (m2.toNat - 48))
               (10 * (d1.toNat - 48) + (d2.toNat - 48))
    else none
  | _ => none

/-- Python `int(s)` on a plain decimal numeral (the only shape a
`cutoff_year` spider argument takes); other strings raise, modeled as `none`. -/
def pyIntOfString (s : String) : Option Nat :=
  if !s.data.isEmpty && s.data.all Char.isDigit then
    some (s.data.foldl (fun n c => 10 * n + (c.toNat - 48)) 0)
  else none

/-- The cutoff-date selection of `TMSectionsSpider.__init__`: a truthy
`cutoff` wins, else a truthy `cutoff_year` gives January 1 of that year, else
the default is `date(2025, 1, 1)`. A `ValueError` from parsing is `none`. -/
def initCutoffDate (cutoff cutoff_year : Option String) : Option PyDate :=
  if optTruthy cutoff then
    match cutoff with
    | some s => fromisoformat s
    | none => none
  else if optTruthy cutoff_year then
    match cutoff_year with
    | some s =>
      match pyIntOfString s with
      | some n => mkPyDate n 1 1
      | none => none
    | none => none
  else some ⟨2025, 1, 1⟩

/-! ## Crawl controller: `parse_section`

`response.urljoin` / `response.follow` resolve hrefs with the stdlib
`urllib.parse.urljoin`, which is kept abstract and passed in as the `urljoin`
parameter (applied to the response's own URL). The Ledger's `has` is passed
as the predicate `seen`. -/

/-- A request the controller dispatches: an article fetch (callback
`parse_article`) or a further listing page (callback `parse_section`), each
carrying the `section_url` and `article_count` meta values. -/
inductive Request
  | article (url : String) (section_url : Option String) (article_count : Nat)
  | listing (url : String) (section_url : Option String) (article_count : Nat)
deriving DecidableEq, Repr

/-- Is this a listing-pagination request (callback `parse_section`)? -/
def isListingRequest : Request → Bool
  | .listing _ _ _ => true
  | _ => false

/-- The URL of an article request, if it is one. -/
def articleUrlOf : Request → Option String
  | .article u _ _ => some u
  | _ => none

/-- Does the string contain `"/articles/"` (Python `"/articles/" in h`)? -/
def containsArticlesPath : List Char → Bool
  | [] => false
  | c :: l => listStarts "/articles/".data (c :: l) || containsArticlesPath l

/-- Python `sorted(set)`: the distinct elements in ascending order.
`List.dedup` keeps one copy of each element and `List.insertionSort` arranges
them by `≤`. -/
def pySortedSet (l : List String) : List String :=
  List.insertionSort (fun a b => a ≤ b) l.dedup

/-- Python slice `l[:n]` for an `int` bound: a nonnegative bound keeps the
first `n` elements; a negative bound drops the last `-n`. -/
def pyTakeInt (n : Int) (l : List α) : List α :=
  if 0 ≤ n then l.take n.toNat else l.take (l.length - (-n).toNat)

/-- A section listing page response: the three article-link selector results,
and the three "next" selector results in priority order (`a.next.page-numbers`,
`a.next`, `link[rel='next']`). -/
structure SectionResponse where
  url : String
  titleHrefs : List String
  excerptHrefs : List String
  articleHrefs : List String
  nextPage1 : Option String
  nextPage2 : Option String
  nextPage3 : Option String
deriving Repr

/-- The sorted, deduplicated absolute URLs of candidate article links:
the union of the three selector strategies, filtered to hrefs containing
`"/articles/"`, resolved against the listing page's URL. -/
def sectionCandidates (urljoin : String → String → String)
    (resp : SectionResponse) : List String :=
  pySortedSet
    (((resp.titleHrefs ++ resp.excerptHrefs ++ resp.articleHrefs).filter
        (fun h => containsArticlesPath h.data)).map (urljoin resp.url))

/-- The candidates the Ledger has not seen, in sorted order (`new_articles`). -/
def newArticlesOf (urljoin : String → String → String) (seen : String → Bool)
    (resp : SectionResponse) : List String :=
  (sectionCandidates urljoin resp).filter (fun u => !seen u)

/-- `new_articles[:remaining]` with `remaining = 5 - article_count`. -/
def dispatchedOf (urljoin : String → String → String) (seen : String → Bool)
    (resp : SectionResponse) (article_count : Nat) : List String :=
  pyTakeInt (5 - (article_count : Int)) (newArticlesOf urljoin seen resp)

/-- The article requests of the dispatch loop: each `response.follow` carries
`article_count + 1` with the counter incremented per iteration. -/
def mkArticleReqs (urljoin : String → String → String) (base : String)
    (section_url : Option String) : Nat → List String → List Request
  | _, [] => []
  | c, u :: rest =>
    Request.article (urljoin base u) section_url (c + 1)
      :: mkArticleReqs urljoin base section_url (c + 1) rest

/-- The `next_page` chain `css1 or css2 or css3` of `parse_section`. -/
def nextPageOf (resp : SectionResponse) : Option String :=
  pyOr resp.nextPage1 (pyOr resp.nextPage2 resp.nextPage3)

/-- The pagination requests issued at the end of `parse_section`: none unless
the updated count is below 5 and a truthy "next" link is found. -/
def paginationOf (urljoin : String → String → String) (seen : String → Bool)
    (resp : SectionResponse) (section_url : Option String)
    (article_count : Nat) : List Request :=
  let fc := article_count + (dispatchedOf urljoin seen resp article_count).length
  if fc < 5 then
    match nextPageOf resp with
    | some np =>
      if np = "" then [] else [Request.listing (urljoin resp.url np) section_url fc]
    | none => []
  else []

/-- `TMSectionsSpider.parse_section`: dispatch up to `5 - article_count`
unseen article links in ascending URL order, then possibly paginate. -/
def parse_section (urljoin : String → String → String) (seen : String → Bool)
    (resp : SectionResponse) (section_url : Option String)
    (article_count : Nat) : List Request :=
  mkArticleReqs urljoin resp.url section_url article_count
      (dispatchedOf urljoin seen resp article_count)
    ++ paginationOf urljoin seen resp section_url article_count

/-! ## Crawl controller: `parse_article` -/

/-- The selection returned by one body container selector: the HTML of its
first match (`body.get(default="")`) and the href targets found inside it
(`body.css("a::attr(href)").getall()`). `none` means the selector matched
nothing (falsy selection). -/
structure BodySel where
  html : String
  hrefs : List String
deriving Repr

/-- An article page response: the selector results `parse_article` reads. -/
structure ArticleResponse where
  url : String
  titleSpanText : Option String
  titleText : Option String
  dateText : Option String
  companyTexts : List String
  bodySingle : Option BodySel
  bodyEntry : Option BodySel
  bodyArticle : Option BodySel
  bodyArticleTag : Option BodySel
  loosePieces : List String
  pageHrefs : List String
  tagTexts : List String
deriving Repr

/-- The emitted item dictionary. -/
structure Item where
  url : String
  «section» : Option String
  title : Option String
  date : Option String
  date_iso : Option String
  company : Option String
  text : String
  language : Option String
  tags : Option (List String)
  internal_links : Option (List String)
deriving DecidableEq, Repr

/-- The extraction/side-effect steps of `parse_article`, in source order;
the trace records which of them a run performs. -/
inductive Step
  | title | date | company | body | text | tags | links | language
  | ledgerAdd | yieldItem
deriving DecidableEq, Repr

/-- The trace of a full (non-skipped) run of `parse_article`. -/
def fullTrace : List Step :=
  [Step.title, Step.date, Step.company, Step.body, Step.text, Step.tags,
   Step.links, Step.language, Step.ledgerAdd, Step.yieldItem]

/-- Zero-padded decimal numeral of width (at least) `w`. -/
def padNum (w n : Nat) : String :=
  let s := toString n
  String.mk (List.replicate (w - s.data.length) '0') ++ s

/-- `date.isoformat()`: `YYYY-MM-DD`. -/
def isoformat (d : PyDate) : String :=
  padNum 4 d.year ++ "-" ++ padNum 2 d.month ++ "-" ++ padNum 2 d.day

/-- `", ".join(companies)`. -/
def joinComma : List String → String
  | [] => ""
  | [s] => s
  | s :: rest => s ++ ", " ++ joinComma rest

/-- `"".join(pieces)`. -/
def joinAll : List String → String
  | [] => ""
  | s :: rest => s ++ joinAll rest

/-- The body-selector loop: the first of the four candidates that matched and
yielded nonempty HTML. -/
def pickBody : List (Option BodySel) → Option BodySel
  | [] => none
  | some b :: rest => if b.html = "" then pickBody rest else some b
  | none :: rest => pickBody rest

/-- The located article body: HTML and contained hrefs from the first
succeeding container selector, else the loose whole-page fallback
(`p, li, h2, h3` joined, links from the whole response). -/
def locateBody (r : ArticleResponse) : String × List String :=
  match pickBody [r.bodySingle, r.bodyEntry, r.bodyArticle, r.bodyArticleTag] with
  | some b => (b.html, b.hrefs)
  | none => (joinAll r.loosePieces, r.pageHrefs)

/-- `date_str` after the two truthiness-guarded steps of `parse_article`:
`css.get()` then `date_str.strip() if date_str else None`. -/
def dateStrOf (r : ArticleResponse) : Option String := truthyStrip r.dateText

/-- `parsed_date`: `parse_date(date_str) if date_str else None`. -/
def parsedDateOf (r : ArticleResponse) : Option PyDate :=
  match dateStrOf r with
  | some s => if s = "" then none else parse_date s
  | none => none

/-- `title`: first truthy of the two title selectors, stripped;
`None` when both are falsy. -/
def titleOf (r : ArticleResponse) : Option String :=
  truthyStrip (pyOr r.titleSpanText r.titleText)

/-- Order-preserving deduplication with an accumulator of already-kept
elements: the list comprehension
`[u for u in internal_links if not (u in seen_u or seen_u.add(u))]`. -/
def dedupGo (acc : List String) : List String → List String
  | [] => []
  | u :: rest => if u ∈ acc then dedupGo acc rest else u :: dedupGo (u :: acc) rest

/-- `pyDedup l`: keep the first occurrence of each element. -/
def pyDedup (l : List String) : List String := dedupGo [] l

/-- The internal links loop of `parse_article` before deduplication:
absolutize each href of the located body against the article URL, keep the
truthy, internal results. -/
def rawInternalLinks (urljoin : String → String → String)
    (r : ArticleResponse) : List String :=
  (locateBody r).2.filterMap fun a =>
    match absolutize urljoin r.url a with
    | some u => if u ≠ "" && is_internal u then some u else none
    | none => none

/-- `internal_links` after order-preserving deduplication. -/
def internalLinksOf (urljoin : String → String → String)
    (r : ArticleResponse) : List String :=
  pyDedup (rawInternalLinks urljoin r)

/-- `TMSectionsSpider.parse_article`: extract title and date; skip (emit
nothing, touch nothing) if the parsed date is strictly before the cutoff;
otherwise extract the remaining fields, mark the URL seen, and yield the
item. Returns the optional item, the updated Ledger, and the step trace. -/
def parse_article (urljoin : String → String → String)
    (detectFn : Option (String → Option String)) (cutoff : PyDate)
    (seen : SeenStore) (now : String) (r : ArticleResponse)
    (section_url : Option String) : Option Item × SeenStore × List Step :=
  let skip := match parsedDateOf r with
    | some d => pyDateLt d cutoff
    | none => false
  if skip then (none, seen, [Step.title, Step.date])
  else
    let companies := (r.companyTexts.map pyStripStr).filter (fun t => t ≠ "")
    let company := if companies.isEmpty then none else some (joinComma companies)
    let bodyPair := locateBody r
    let text := to_plain_text bodyPair.1
    let tags := (r.tagTexts.map pyStripStr).filter (fun t => t ≠ "")
    let links := internalLinksOf urljoin r
    let language := match detectFn with
      | some f => if text = "" then none else f text
      | none => none
    let it : Item :=
      { url := r.url
        «section» := section_url
        title := titleOf r
        date := dateStrOf r
        date_iso := (parsedDateOf r).map isoformat
        company := company
        text := text
        language := language
        tags := if tags.isEmpty then none else some tags
        internal_links := if links.isEmpty then none else some links }
    (some it, seen.add r.url now, fullTrace)

/-! ## Normal-form predicates used by the idempotence analysis -/

/-- Does the list contain a (leftmost-scan) tag match anywhere? -/
def hasTag : List Char → Bool
  | [] => false
  | c :: l => (c = '<' && (tagMatch l).isSome) || hasTag l

/-- The first character, if any, is not Python whitespace. -/
def headOk : List Char → Bool
  | [] => true
  | c :: _ => !isPyWS c

/-- The last character, if any, is not Python whitespace. -/
def lastOk (l : List Char) : Bool :=
  match l.getLast? with
  | some c => !isPyWS c
  | none => true

/-- Does the list start with a space? -/
def nextIsSpace : List Char → Bool
  | c :: _ => c = ' '
  | [] => false

/-- Space-collapsed: no tabs and no two adjacent spaces. -/
def spOk : List Char → Bool
  | [] => true
  | c :: l => !(c = '\t') && !(c = ' ' && nextIsSpace l) && spOk l

/-- Newline-collapsed: no newline directly followed by two more. -/
def nlOk : List Char → Bool
  | [] => true
  | c :: l => !(c = '\n' && nl2 l) && nlOk l

/-! ## Lemmas about the tag-removal scan -/

theorem afterGt_length_lt : ∀ {l r : List Char}, afterGt l = some r →
    r.length < l.length := by
  intro l
  induction l with
  | nil => intro r h; simp [afterGt] at h
  | cons c t ih =>
    intro r h
    simp only [afterGt] at h
    by_cases hc : c = '>'
    · simp [hc] at h; subst h; simp
    · simp [hc] at h
      exact Nat.lt_trans (ih h) (by simp)

theorem mem_of_afterGt : ∀ {l r : List Char}, afterGt l = some r →
    ∀ {a : Char}, a ∈ r → a ∈ l := by
  intro l
  induction l with
  | nil => intro r h; simp [afterGt] at h
  | cons c t ih =>
    intro r h a ha
    simp only [afterGt] at h
    by_cases hc : c = '>'
    · simp [hc] at h; subst h; exact List.mem_cons_of_mem _ ha
    · simp [hc] at h
      exact List.mem_cons_of_mem _ (ih h ha)

theorem afterGt_eq_none_iff {l : List Char} : afterGt l = none ↔ '>' ∉ l := by
  induction l with
  | nil => simp [afterGt]
  | cons c t ih =>
    by_cases hc : c = '>'
    · subst hc; simp [afterGt]
    · simp [afterGt, hc, ih, Ne.symm hc]

theorem afterGt_append : ∀ {l r : List Char}, afterGt l = some r →
    ∀ (t : List Char), afterGt (l ++ t) = some (r ++ t) := by
  intro l
  induction l with
  | nil => intro r h; simp [afterGt] at h
  | cons c u ih =>
    intro r h t
    simp only [afterGt] at h
    by_cases hc : c = '>'
    · simp [hc] at h; subst h; simp [afterGt, hc]
    · simp [hc] at h
      simp [afterGt, hc, ih h t]

theorem tagBody_none_of_gt {l : List Char} (h : '>' ∉ l) : tagBody l = none := by
  cases l with
  | nil => rfl
  | cons c t =>
    simp only [tagBody]
    by_cases hc : isTagClassChar c
    · simp [hc]
      exact afterGt_eq_none_iff.mpr (fun ht => h (List.mem_cons_of_mem _ ht))
    · simp [hc]

theorem tagMatch_none_of_gt {l : List Char} (h : '>' ∉ l) : tagMatch l = none := by
  cases l with
  | nil => rfl
  | cons c t =>
    simp only [tagMatch]
    by_cases hc : c = '/'
    · simp [hc]
      exact tagBody_none_of_gt (fun ht => h (List.mem_cons_of_mem _ ht))
    · simp [hc]
      exact tagBody_none_of_gt h

theorem tagBody_length_lt : ∀ {l r : List Char}, tagBody l = some r →
    r.length < l.length := by
  intro l r h
  cases l with
  | nil => simp [tagBody] at h
  | cons c t =>
    simp only [tagBody] at h
    by_cases hc : isTagClassChar c
    · simp [hc] at h
      exact Nat.lt_trans (afterGt_length_lt h) (by simp)
    · simp [hc] at h

theorem tagMatch_length_lt : ∀ {l r : List Char}, tagMatch l = some r →
    r.length < l.length := by
  intro l r h
  cases l with
  | nil => simp [tagMatch] at h
  | cons c t =>
    simp only [tagMatch] at h
    by_cases hc : c = '/'
    · simp [hc] at h
      exact Nat.lt_trans (tagBody_length_lt h) (by simp)
    · simp [hc] at h
      exact tagBody_length_lt h

theorem mem_of_tagBody : ∀ {l r : List Char}, tagBody l = some r →
    ∀ {a : Char}, a ∈ r → a ∈ l := by
  intro l r h a ha
  cases l with
  | nil => simp [tagBody] at h
  | cons c t =>
    simp only [tagBody] at h
    by_cases hc : isTagClassChar c
    · simp [hc] at h
      exact List.mem_cons_of_mem _ (mem_of_afterGt h ha)
    · simp [hc] at h

theorem mem_of_tagMatch : ∀ {l r : List Char}, tagMatch l = some r →
    ∀ {a : Char}, a ∈ r → a ∈ l := by
  intro l r h a ha
  cases l with
  | nil => simp [tagMatch] at h
  | cons c t =>
    simp only [tagMatch] at h
    by_cases hc : c = '/'
    · simp [hc] at h
      exact List.mem_cons_of_mem _ (mem_of_tagBody h ha)
    · simp [hc] at h
      exact mem_of_tagBody h ha

theorem tagBody_append : ∀ {l r : List Char}, tagBody l = some r →
    ∀ (t : List Char), tagBody (l ++ t) = some (r ++ t) := by
  intro l r h t
  cases l with
  | nil => simp [tagBody] at h
  | cons c u =>
    simp only [tagBody] at h
    by_cases hc : isTagClassChar c
    · simp [hc] at h
      simp [tagBody, hc, afterGt_append h t]
    · simp [hc] at h

theorem tagMatch_append : ∀ {l r : List Char}, tagMatch l = some r →
    ∀ (t : List Char), tagMatch (l ++ t) = some (r ++ t) := by
  intro l r h t
  cases l with
  | nil => simp [tagMatch] at h
  | cons c u =>
    simp only [tagMatch] at h
    by_cases hc : c = '/'
    · simp [hc] at h
      simp [tagMatch, hc, tagBody_append h t]
    · simp only [hc, if_false] at h
      have := tagBody_append h t
      simp only [List.cons_append] at this
      simp [tagMatch, hc, this]

theorem removeTagsGo_fuel : ∀ (f : Nat) (l : List Char), l.length ≤ f →
    removeTagsGo f l = removeTagsGo l.length l := by
  intro f
  induction f using Nat.strong_induction_on with
  | _ f ih =>
    intro l hl
    cases f with
    | zero =>
      have h0 : l = [] := List.length_eq_zero.mp (Nat.le_zero.mp hl)
      subst h0; rfl
    | succ g =>
      cases l with
      | nil => rfl
      | cons c t =>
        have hlen : t.length ≤ g := by simp at hl; omega
        by_cases hc : c = '<'
        · subst hc
          cases hm : tagMatch t with
          | some rem =>
            have hrl := tagMatch_length_lt hm
            simp only [removeTagsGo, List.length_cons, if_pos, hm]
            rw [ih g (Nat.lt_succ_self g) rem (by omega),
                ih t.length (by omega) rem (by omega)]
          | none =>
            simp only [removeTagsGo, List.length_cons, if_pos, hm]
            rw [ih g (Nat.lt_succ_self g) t hlen,
                ih t.length (by omega) t (Nat.le_refl _)]
        · simp only [removeTagsGo, List.length_cons, if_neg hc]
          rw [ih g (Nat.lt_succ_self g) t hlen,
              ih t.length (by omega) t (Nat.le_refl _)]

theorem removeTags_nil : removeTags [] = [] := rfl

theorem removeTags_cons_ne {c : Char} (hc : c ≠ '<') (l : List Char) :
    removeTags (c :: l) = c :: removeTags l := by
  show removeTagsGo (l.length + 1) (c :: l) = c :: removeTags l
  simp only [removeTagsGo, if_neg hc]
  rfl

theorem removeTags_lt_some {l rem : List Char} (h : tagMatch l = some rem) :
    removeTags ('<' :: l) = removeTags rem := by
  show removeTagsGo (l.length + 1) ('<' :: l) = removeTags rem
  simp only [removeTagsGo, h, if_true, eq_self_iff_true]
  exact removeTagsGo_fuel l.length rem (Nat.le_of_lt (tagMatch_length_lt h))

theorem removeTags_lt_none {l : List Char} (h : tagMatch l = none) :
    removeTags ('<' :: l) = '<' :: removeTags l := by
  show removeTagsGo (l.length + 1) ('<' :: l) = '<' :: removeTags l
  simp only [removeTagsGo, h, if_true, eq_self_iff_true]
  rfl

theorem mem_removeTagsGo : ∀ (f : Nat) (l : List Char) {a : Char},
    a ∈ removeTagsGo f l → a ∈ l := by
  intro f
  induction f with
  | zero => intro l a h; exact h
  | succ g ih =>
    intro l a h
    cases l with
    | nil => exact h
    | cons c t =>
      by_cases hc : c = '<'
      · subst hc
        simp only [removeTagsGo, if_pos rfl] at h
        cases hm : tagMatch t with
        | some rem =>
          rw [hm] at h
          exact List.mem_cons_of_mem _ (mem_of_tagMatch hm (ih rem h))
        | none =>
          rw [hm] at h
          rcases List.mem_cons.mp h with h1 | h2
          · exact List.mem_cons.mpr (Or.inl h1)
          · exact List.mem_cons_of_mem _ (ih t h2)
      · simp only [removeTagsGo, if_neg hc] at h
        rcases List.mem_cons.mp h with h1 | h2
        · exact List.mem_cons.mpr (Or.inl h1)
        · exact List.mem_cons_of_mem _ (ih t h2)

theorem mem_removeTags {l : List Char} {a : Char} (h : a ∈ removeTags l) :
    a ∈ l :=
  mem_removeTagsGo l.length l h

theorem hasTag_append_left : ∀ {a : List Char} (b : List Char),
    hasTag a = true → hasTag (a ++ b) = true := by
  intro a
  induction a with
  | nil => intro b h; simp [hasTag] at h
  | cons c t ih =>
    intro b h
    simp only [hasTag, Bool.or_eq_true, Bool.and_eq_true] at h
    rcases h with ⟨hc, hm⟩ | h2
    · rcases Option.isSome_iff_exists.mp hm with ⟨r, hr⟩
      simp only [List.cons_append, hasTag, Bool.or_eq_true, Bool.and_eq_true]
      exact Or.inl ⟨hc, Option.isSome_iff_exists.mpr ⟨r ++ b, tagMatch_append hr b⟩⟩
    · simp only [List.cons_append, hasTag, Bool.or_eq_true]
      exact Or.inr (ih b h2)

theorem hasTag_append_right : ∀ (a : List Char) {b : List Char},
    hasTag b = true → hasTag (a ++ b) = true := by
  intro a
  induction a with
  | nil => intro b h; exact h
  | cons c t ih =>
    intro b h
    simp only [List.cons_append, hasTag, Bool.or_eq_true]
    exact Or.inr (ih h)

theorem noTag_append_parts {a b : List Char} (h : hasTag (a ++ b) = false) :
    hasTag a = false ∧ hasTag b = false := by
  constructor
  · cases ha : hasTag a with
    | false => rfl
    | true => rw [hasTag_append_left b ha] at h; exact Bool.noConfusion h
  · cases hb : hasTag b with
    | false => rfl
    | true => rw [hasTag_append_right a hb] at h; exact Bool.noConfusion h

theorem removeTagsGo_nil : ∀ (f : Nat), removeTagsGo f [] = []
  | 0 => rfl
  | _ + 1 => rfl

theorem notGt_removeTagsGo {f : Nat} {l : List Char} (h : '>' ∉ l) :
    '>' ∉ removeTagsGo f l :=
  fun hm => h (mem_removeTagsGo f l hm)

theorem tagMatch_none_removeTagsGo : ∀ (f : Nat) {l : List Char},
    l.length ≤ f → tagMatch l = none → tagMatch (removeTagsGo f l) = none := by
  intro f
  cases f with
  | zero =>
    intro l hl h
    have h0 : l = [] := List.length_eq_zero.mp (Nat.le_zero.mp hl)
    subst h0; exact h
  | succ g =>
    intro l hl h
    cases l with
    | nil => exact h
    | cons c t =>
      have hlen : t.length ≤ g := by simp at hl; omega
      by_cases hslash : c = '/'
      · subst hslash
        have hb : tagBody t = none := by simpa [tagMatch] using h
        have hgo : removeTagsGo (g + 1) ('/' :: t) = '/' :: removeTagsGo g t := by
          simp [removeTagsGo]
        rw [hgo]
        have : tagBody (removeTagsGo g t) = none := by
          cases t with
          | nil => rw [removeTagsGo_nil]; rfl
          | cons d t' =>
            simp only [tagBody] at hb
            by_cases hd : isTagClassChar d
            · simp only [hd, if_true, eq_self_iff_true] at hb
              have hgt : '>' ∉ d :: t' := by
                intro hmem
                rcases List.mem_cons.mp hmem with h1 | h2
                · rw [← h1] at hd; simp [isTagClassChar] at hd
                · exact (afterGt_eq_none_iff.mp hb) h2
              exact tagBody_none_of_gt (notGt_removeTagsGo hgt)
            · cases g with
              | zero => simp at hlen
              | succ g' =>
                have hd' : d ≠ '<' := by
                  intro hdd; rw [hdd] at hd; simp [isTagClassChar] at hd
                simp [removeTagsGo, hd', tagBody, hd]
        simp [tagMatch, this]
      · have hb : tagBody (c :: t) = none := by simpa [tagMatch, hslash] using h
        simp only [tagBody] at hb
        by_cases hcl : isTagClassChar c
        · simp only [hcl, if_true, eq_self_iff_true] at hb
          have hgt : '>' ∉ c :: t := by
            intro hmem
            rcases List.mem_cons.mp hmem with h1 | h2
            · rw [← h1] at hcl; simp [isTagClassChar] at hcl
            · exact (afterGt_eq_none_iff.mp hb) h2
          exact tagMatch_none_of_gt (notGt_removeTagsGo hgt)
        · have hc' : c ≠ '<' := by
            intro hdd; rw [hdd] at hcl; simp [isTagClassChar] at hcl
          have hgo : removeTagsGo (g + 1) (c :: t) = c :: removeTagsGo g t := by
            simp [removeTagsGo, hc']
          rw [hgo]
          simp [tagMatch, hslash, tagBody, hcl]

theorem hasTag_removeTagsGo : ∀ (f : Nat) (l : List Char), l.length ≤ f →
    hasTag (removeTagsGo f l) = false := by
  intro f
  induction f using Nat.strong_induction_on with
  | _ f ih =>
    intro l hl
    cases f with
    | zero =>
      have h0 : l = [] := List.length_eq_zero.mp (Nat.le_zero.mp hl)
      subst h0; rfl
    | succ g =>
      cases l with
      | nil => rfl
      | cons c t =>
        have hlen : t.length ≤ g := by simp at hl; omega
        by_cases hc : c = '<'
        · subst hc
          cases hm : tagMatch t with
          | some rem =>
            have hrl := tagMatch_length_lt hm
            simp only [removeTagsGo, if_pos, hm]
            exact ih g (Nat.lt_succ_self g) rem (by omega)
          | none =>
            simp only [removeTagsGo, if_pos, hm]
            have h1 : tagMatch (removeTagsGo g t) = none :=
              tagMatch_none_removeTagsGo g hlen hm
            simp [hasTag, h1, ih g (Nat.lt_succ_self g) t hlen]
        · simp only [removeTagsGo, if_neg hc]
          simp [hasTag, hc, ih g (Nat.lt_succ_self g) t hlen]

theorem hasTag_removeTags (l : List Char) : hasTag (removeTags l) = false :=
  hasTag_removeTagsGo l.length l (Nat.le_refl _)

theorem removeTags_of_noTag : ∀ {l : List Char}, hasTag l = false →
    removeTags l = l := by
  intro l
  induction l with
  | nil => intro _; rfl
  | cons c t ih =>
    intro h
    simp only [hasTag, Bool.or_eq_false_iff, Bool.and_eq_false_iff] at h
    by_cases hc : c = '<'
    · subst hc
      have hm : tagMatch t = none := by
        rcases h.1 with h1 | h1
        · simp at h1
        · exact Option.not_isSome_iff_eq_none.mp (by simp [h1])
      rw [removeTags_lt_none hm, ih h.2]
    · rw [removeTags_cons_ne hc, ih h.2]

/-! ## Lemmas about the `&nbsp;` removal -/

theorem listStarts_decomp : ∀ {p l : List Char}, listStarts p l = true →
    l = p ++ l.drop p.length := by
  intro p
  induction p with
  | nil => intro l _; rfl
  | cons a p ih =>
    intro l h
    cases l with
    | nil => simp [listStarts] at h
    | cons b t =>
      simp only [listStarts, Bool.and_eq_true, decide_eq_true_eq] at h
      rw [← h.1]
      simpa using ih h.2

theorem listStarts_self_append (p t : List Char) :
    listStarts p (p ++ t) = true := by
  induction p with
  | nil => rfl
  | cons a p ih => simp [listStarts, ih]

theorem listStarts_cons_ne {c : Char} (hc : c ≠ '&') (l : List Char) :
    listStarts nbspChars (c :: l) = false := by
  simp [nbspChars, listStarts, Ne.symm hc]

theorem removeNbspGo_fuel : ∀ (f : Nat) (l : List Char), l.length ≤ f →
    removeNbspGo f l = removeNbspGo l.length l := by
  intro f
  induction f using Nat.strong_induction_on with
  | _ f ih =>
    intro l hl
    cases f with
    | zero =>
      have h0 : l = [] := List.length_eq_zero.mp (Nat.le_zero.mp hl)
      subst h0; rfl
    | succ g =>
      cases l with
      | nil => rfl
      | cons c t =>
        have hlen : t.length ≤ g := by simp at hl; omega
        by_cases hs : listStarts nbspChars (c :: t)
        · simp only [removeNbspGo, List.length_cons, if_pos hs]
          have hdl : (t.drop 5).length ≤ g := by
            simp only [List.length_drop]; omega
          have hdl2 : (t.drop 5).length ≤ t.length := by
            simp only [List.length_drop]; omega
          rw [ih g (Nat.lt_succ_self g) (t.drop 5) hdl,
              ih t.length (by omega) (t.drop 5) hdl2]
        · simp only [removeNbspGo, List.length_cons, if_neg hs]
          rw [ih g (Nat.lt_succ_self g) t hlen,
              ih t.length (by omega) t (Nat.le_refl _)]

theorem removeNbsp_start {c : Char} {t : List Char}
    (h : listStarts nbspChars (c :: t) = true) :
    removeNbsp (c :: t) = removeNbsp (t.drop 5) := by
  show removeNbspGo (t.length + 1) (c :: t) = removeNbsp (t.drop 5)
  have hstep : removeNbspGo (t.length + 1) (c :: t)
      = removeNbspGo t.length (t.drop 5) := by
    simp [removeNbspGo, h]
  rw [hstep]
  exact removeNbspGo_fuel t.length (t.drop 5)
    (by simp only [List.length_drop]; omega)

theorem removeNbsp_cons {c : Char} {t : List Char}
    (h : listStarts nbspChars (c :: t) = false) :
    removeNbsp (c :: t) = c :: removeNbsp t := by
  show removeNbspGo (t.length + 1) (c :: t) = c :: removeNbsp t
  simp [removeNbspGo, removeNbsp, h]

theorem mem_removeNbspGo : ∀ (f : Nat) (l : List Char) {a : Char},
    a ∈ removeNbspGo f l → a ∈ l := by
  intro f
  induction f with
  | zero => intro l a h; exact h
  | succ g ih =>
    intro l a h
    cases l with
    | nil => exact h
    | cons c t =>
      by_cases hs : listStarts nbspChars (c :: t)
      · simp only [removeNbspGo, if_pos hs] at h
        exact List.mem_cons_of_mem _ (List.mem_of_mem_drop (ih _ h))
      · simp only [removeNbspGo, if_neg hs] at h
        rcases List.mem_cons.mp h with h1 | h2
        · exact List.mem_cons.mpr (Or.inl h1)
        · exact List.mem_cons_of_mem _ (ih t h2)

theorem mem_removeNbsp {l : List Char} {a : Char} (h : a ∈ removeNbsp l) :
    a ∈ l :=
  mem_removeNbspGo l.length l h

theorem removeNbsp_of_noNbsp : ∀ {l : List Char}, hasNbsp l = false →
    removeNbsp l = l := by
  intro l
  induction l with
  | nil => intro _; rfl
  | cons c t ih =>
    intro h
    simp only [hasNbsp, Bool.or_eq_false_iff] at h
    rw [removeNbsp_cons h.1, ih h.2]

theorem tagMatch_none_removeNbsp : ∀ {l : List Char}, tagMatch l = none →
    tagMatch (removeNbsp l) = none := by
  intro l h
  cases l with
  | nil => exact h
  | cons c t =>
    have notClass_cases : ∀ (d : Char), isTagClassChar d = false →
        d = ' ' ∨ d = '>' ∨ d = '/' := by
      intro d hd
      simp only [isTagClassChar, Bool.not_eq_false', Bool.or_eq_true,
        decide_eq_true_eq] at hd
      tauto
    by_cases hslash : c = '/'
    · subst hslash
      have hb : tagBody t = none := by simpa [tagMatch] using h
      rw [removeNbsp_cons (listStarts_cons_ne (by decide) t)]
      have hbody : tagBody (removeNbsp t) = none := by
        cases t with
        | nil => rfl
        | cons d t' =>
          simp only [tagBody] at hb
          by_cases hd : isTagClassChar d
          · simp only [hd, if_true, eq_self_iff_true] at hb
            have hgt : '>' ∉ d :: t' := by
              intro hmem
              rcases List.mem_cons.mp hmem with h1 | h2
              · rw [← h1] at hd; simp [isTagClassChar] at hd
              · exact (afterGt_eq_none_iff.mp hb) h2
            exact tagBody_none_of_gt (fun hm => hgt (mem_removeNbsp hm))
          · have hd' : isTagClassChar d = false := by simpa using hd
            rcases notClass_cases d hd' with h1 | h1 | h1 <;>
            · subst h1
              rw [removeNbsp_cons (listStarts_cons_ne (by decide) t')]
              simp [tagBody, isTagClassChar]
      simp [tagMatch, hbody]
    · have hb : tagBody (c :: t) = none := by simpa [tagMatch, hslash] using h
      simp only [tagBody] at hb
      by_cases hcl : isTagClassChar c
      · simp only [hcl, if_true, eq_self_iff_true] at hb
        have hgt : '>' ∉ c :: t := by
          intro hmem
          rcases List.mem_cons.mp hmem with h1 | h2
          · rw [← h1] at hcl; simp [isTagClassChar] at hcl
          · exact (afterGt_eq_none_iff.mp hb) h2
        exact tagMatch_none_of_gt (fun hm => hgt (mem_removeNbsp hm))
      · have hcl' : isTagClassChar c = false := by simpa using hcl
        rcases notClass_cases c hcl' with h1 | h1 | h1
        · subst h1
          rw [removeNbsp_cons (listStarts_cons_ne (by decide) t)]
          simp [tagMatch, tagBody, isTagClassChar]
        · subst h1
          rw [removeNbsp_cons (listStarts_cons_ne (by decide) t)]
          simp [tagMatch, tagBody, isTagClassChar]
        · exact absurd h1 hslash

theorem hasTag_false_removeNbsp (l : List Char) (h : hasTag l = false) :
    hasTag (removeNbsp l) = false := by
  cases l with
  | nil => exact h
  | cons c t =>
    by_cases hs : listStarts nbspChars (c :: t)
    · rw [removeNbsp_start hs]
      have hdec := listStarts_decomp hs
      have hsuffix : hasTag ((c :: t).drop nbspChars.length) = false := by
        have h2 := h
        rw [hdec] at h2
        exact (noTag_append_parts h2).2
      have hdrop : (c :: t).drop nbspChars.length = t.drop 5 := by
        simp [nbspChars]
      rw [hdrop] at hsuffix
      exact hasTag_false_removeNbsp (t.drop 5) hsuffix
    · rw [removeNbsp_cons (by simpa using hs)]
      simp only [hasTag, Bool.or_eq_false_iff, Bool.and_eq_false_iff] at h
      have ht : hasTag (removeNbsp t) = false :=
        hasTag_false_removeNbsp t h.2
      by_cases hc : c = '<'
      · subst hc
        have hm : tagMatch t = none := by
          rcases h.1 with h1 | h1
          · simp at h1
          · exact Option.not_isSome_iff_eq_none.mp (by simp [h1])
        simp [hasTag, ht, tagMatch_none_removeNbsp hm]
      · simp [hasTag, ht, hc]
termination_by l.length
decreasing_by
  all_goals subst_vars
  · simp only [List.length_drop, List.length_cons]; omega
  · simp

/-! ## Lemmas about the whitespace collapses -/

theorem mem_collapseSP : ∀ {l : List Char} {a : Char}, a ∈ collapseSP l →
    a ∈ l ∨ a = ' ' := by
  intro l
  induction l with
  | nil => intro a h; exact Or.inl h
  | cons c t ih =>
    intro a h
    by_cases hc : isHT c
    · by_cases hn : nextHT t
      · simp only [collapseSP, hc, if_true, hn] at h
        rcases ih h with h1 | h1
        · exact Or.inl (List.mem_cons_of_mem _ h1)
        · exact Or.inr h1
      · simp only [collapseSP, hc, if_true, hn, if_false] at h
        rcases List.mem_cons.mp h with h1 | h1
        · exact Or.inr h1
        · rcases ih h1 with h2 | h2
          · exact Or.inl (List.mem_cons_of_mem _ h2)
          · exact Or.inr h2
    · simp only [collapseSP, hc, if_false] at h
      rcases List.mem_cons.mp h with h1 | h1
      · exact Or.inl (List.mem_cons.mpr (Or.inl h1))
      · rcases ih h1 with h2 | h2
        · exact Or.inl (List.mem_cons_of_mem _ h2)
        · exact Or.inr h2

theorem collapseSP_HT_head : ∀ (l : List Char) (c : Char), isHT c = true →
    ∃ z, collapseSP (c :: l) = ' ' :: z := by
  intro l
  induction l with
  | nil =>
    intro c hc
    exact ⟨[], by simp [collapseSP, hc, nextHT]⟩
  | cons d t ih =>
    intro c hc
    by_cases hd : isHT d
    · rcases ih d hd with ⟨z, hz⟩
      exact ⟨z, by simp [collapseSP, hc, nextHT, hd] at hz ⊢; exact hz⟩
    · exact ⟨collapseSP (d :: t), by simp [collapseSP, hc, nextHT, hd]⟩

theorem collapseSP_cons_not {c : Char} (hc : isHT c = false) (l : List Char) :
    collapseSP (c :: l) = c :: collapseSP l := by
  simp [collapseSP, hc]

theorem tagMatch_none_collapseSP : ∀ {l : List Char}, tagMatch l = none →
    tagMatch (collapseSP l) = none := by
  intro l h
  cases l with
  | nil => exact h
  | cons c t =>
    have notClass_cases : ∀ (d : Char), isTagClassChar d = false →
        d = ' ' ∨ d = '>' ∨ d = '/' := by
      intro d hd
      simp only [isTagClassChar, Bool.not_eq_false', Bool.or_eq_true,
        decide_eq_true_eq] at hd
      tauto
    have notGtSP : ∀ {z : List Char}, '>' ∉ z → '>' ∉ collapseSP z := by
      intro z hz hm
      rcases mem_collapseSP hm with h1 | h1
      · exact hz h1
      · exact absurd h1 (by decide)
    by_cases hslash : c = '/'
    · subst hslash
      have hb : tagBody t = none := by simpa [tagMatch] using h
      rw [collapseSP_cons_not (by decide) t]
      have hbody : tagBody (collapseSP t) = none := by
        cases t with
        | nil => rfl
        | cons d t' =>
          simp only [tagBody] at hb
          by_cases hd : isTagClassChar d
          · simp only [hd, if_true, eq_self_iff_true] at hb
            have hgt : '>' ∉ d :: t' := by
              intro hmem
              rcases List.mem_cons.mp hmem with h1 | h2
              · rw [← h1] at hd; simp [isTagClassChar] at hd
              · exact (afterGt_eq_none_iff.mp hb) h2
            exact tagBody_none_of_gt (notGtSP hgt)
          · have hd' : isTagClassChar d = false := by simpa using hd
            rcases notClass_cases d hd' with h1 | h1 | h1
            · subst h1
              rcases collapseSP_HT_head t' ' ' (by decide) with ⟨z, hz⟩
              rw [hz]
              simp [tagBody, isTagClassChar]
            · subst h1
              rw [collapseSP_cons_not (by decide) t']
              simp [tagBody, isTagClassChar]
            · subst h1
              rw [collapseSP_cons_not (by decide) t']
              simp [tagBody, isTagClassChar]
      simp [tagMatch, hbody]
    · have hb : tagBody (c :: t) = none := by simpa [tagMatch, hslash] using h
      simp only [tagBody] at hb
      by_cases hcl : isTagClassChar c
      · simp only [hcl, if_true, eq_self_iff_true] at hb
        have hgt : '>' ∉ c :: t := by
          intro hmem
          rcases List.mem_cons.mp hmem with h1 | h2
          · rw [← h1] at hcl; simp [isTagClassChar] at hcl
          · exact (afterGt_eq_none_iff.mp hb) h2
        exact tagMatch_none_of_gt (notGtSP hgt)
      · have hcl' : isTagClassChar c = false := by simpa using hcl
        rcases notClass_cases c hcl' with h1 | h1 | h1
        · subst h1
          rcases collapseSP_HT_head t ' ' (by decide) with ⟨z, hz⟩
          rw [hz]
          simp [tagMatch, tagBody, isTagClassChar]
        · subst h1
          rw [collapseSP_cons_not (by decide) t]
          simp [tagMatch, tagBody, isTagClassChar]
        · exact absurd h1 hslash

theorem hasTag_false_collapseSP : ∀ {l : List Char}, hasTag l = false →
    hasTag (collapseSP l) = false := by
  intro l
  induction l with
  | nil => intro _; rfl
  | cons c t ih =>
    intro h
    simp only [hasTag, Bool.or_eq_false_iff, Bool.and_eq_false_iff] at h
    have ht := ih h.2
    by_cases hc : isHT c
    · by_cases hn : nextHT t
      · simpa [collapseSP, hc, hn] using ht
      · simp [collapseSP, hc, hn, hasTag, ht]
    · have hc' : c ≠ '<' ∨ tagMatch t = none := by
        rcases h.1 with h1 | h1
        · exact Or.inl (by simpa using h1)
        · exact Or.inr (Option.not_isSome_iff_eq_none.mp (by simp [h1]))
      rw [collapseSP_cons_not (by simpa using hc) t]
      rcases hc' with h1 | h1
      · simp [hasTag, ht, h1]
      · simp [hasTag, ht, tagMatch_none_collapseSP h1]

theorem nl2_head {l : List Char} (h : nl2 l = true) : l.head? = some '\n' := by
  cases l with
  | nil => simp [nl2] at h
  | cons a t =>
    cases t with
    | nil => simp [nl2] at h
    | cons b u =>
      simp only [nl2, Bool.and_eq_true, decide_eq_true_eq] at h
      simp [h.1]

theorem collapseNL_cons_ne {c : Char} (hc : c ≠ '\n') (l : List Char) :
    collapseNL (c :: l) = c :: collapseNL l := by
  simp [collapseNL, hc]

theorem mem_collapseNL : ∀ {l : List Char} {a : Char}, a ∈ collapseNL l →
    a ∈ l ∨ a = '\n' := by
  intro l
  induction l with
  | nil => intro a h; exact Or.inl h
  | cons c t ih =>
    intro a h
    by_cases hc : c = '\n'
    · by_cases hn : nl2 t
      · simp only [collapseNL, hc, if_true, hn] at h
        rcases ih h with h1 | h1
        · exact Or.inl (List.mem_cons_of_mem _ h1)
        · exact Or.inr h1
      · simp only [collapseNL, hc, if_true, hn, if_false] at h
        rcases List.mem_cons.mp h with h1 | h1
        · exact Or.inr h1
        · rcases ih h1 with h2 | h2
          · exact Or.inl (List.mem_cons_of_mem _ h2)
          · exact Or.inr h2
    · rw [collapseNL_cons_ne hc] at h
      rcases List.mem_cons.mp h with h1 | h1
      · exact Or.inl (List.mem_cons.mpr (Or.inl h1))
      · rcases ih h1 with h2 | h2
        · exact Or.inl (List.mem_cons_of_mem _ h2)
        · exact Or.inr h2

theorem collapseNL_head : ∀ (l : List Char), (collapseNL l).head? = l.head? := by
  intro l
  induction l with
  | nil => rfl
  | cons c t ih =>
    by_cases hc : c = '\n'
    · subst hc
      by_cases hn : nl2 t
      · simp only [collapseNL, if_pos rfl, hn, if_true]
        rw [ih, nl2_head hn]
        rfl
      · simp [collapseNL, hn]
    · simp [collapseNL_cons_ne hc]

theorem tagMatch_none_collapseNL : ∀ {l : List Char}, tagMatch l = none →
    tagMatch (collapseNL l) = none := by
  intro l h
  cases l with
  | nil => exact h
  | cons c t =>
    have notClass_cases : ∀ (d : Char), isTagClassChar d = false →
        d = ' ' ∨ d = '>' ∨ d = '/' := by
      intro d hd
      simp only [isTagClassChar, Bool.not_eq_false', Bool.or_eq_true,
        decide_eq_true_eq] at hd
      tauto
    have notGtNL : ∀ {z : List Char}, '>' ∉ z → '>' ∉ collapseNL z := by
      intro z hz hm
      rcases mem_collapseNL hm with h1 | h1
      · exact hz h1
      · exact absurd h1 (by decide)
    by_cases hslash : c = '/'
    · subst hslash
      have hb : tagBody t = none := by simpa [tagMatch] using h
      rw [collapseNL_cons_ne (by decide) t]
      have hbody : tagBody (collapseNL t) = none := by
        cases t with
        | nil => rfl
        | cons d t' =>
          simp only [tagBody] at hb
          by_cases hd : isTagClassChar d
          · simp only [hd, if_true, eq_self_iff_true] at hb
            have hgt : '>' ∉ d :: t' := by
              intro hmem
              rcases List.mem_cons.mp hmem with h1 | h2
              · rw [← h1] at hd; simp [isTagClassChar] at hd
              · exact (afterGt_eq_none_iff.mp hb) h2
            exact tagBody_none_of_gt (notGtNL hgt)
          · have hd' : isTagClassChar d = false := by simpa using hd
            rcases notClass_cases d hd' with h1 | h1 | h1 <;>
            · subst h1
              rw [collapseNL_cons_ne (by decide) t']
              simp [tagBody, isTagClassChar]
      simp [tagMatch, hbody]
    · have hb : tagBody (c :: t) = none := by simpa [tagMatch, hslash] using h
      simp only [tagBody] at hb
      by_cases hcl : isTagClassChar c
      · simp only [hcl, if_true, eq_self_iff_true] at hb
        have hgt : '>' ∉ c :: t := by
          intro hmem
          rcases List.mem_cons.mp hmem with h1 | h2
          · rw [← h1] at hcl; simp [isTagClassChar] at hcl
          · exact (afterGt_eq_none_iff.mp hb) h2
        exact tagMatch_none_of_gt (notGtNL hgt)
      · have hcl' : isTagClassChar c = false := by simpa using hcl
        rcases notClass_cases c hcl' with h1 | h1 | h1
        · subst h1
          rw [collapseNL_cons_ne (by decide) t]
          simp [tagMatch, tagBody, isTagClassChar]
        · subst h1
          rw [collapseNL_cons_ne (by decide) t]
          simp [tagMatch, tagBody, isTagClassChar]
        · exact absurd h1 hslash

theorem hasTag_false_collapseNL : ∀ {l : List Char}, hasTag l = false →
    hasTag (collapseNL l) = false := by
  intro l
  induction l with
  | nil => intro _; rfl
  | cons c t ih =>
    intro h
    simp only [hasTag, Bool.or_eq_false_iff, Bool.and_eq_false_iff] at h
    have ht := ih h.2
    by_cases hc : c = '\n'
    · subst hc
      by_cases hn : nl2 t
      · simpa [collapseNL, hn] using ht
      · simp [collapseNL, hn, hasTag, ht]
    · have hc' : c ≠ '<' ∨ tagMatch t = none := by
        rcases h.1 with h1 | h1
        · exact Or.inl (by simpa using h1)
        · exact Or.inr (Option.not_isSome_iff_eq_none.mp (by simp [h1]))
      rw [collapseNL_cons_ne hc t]
      rcases hc' with h1 | h1
      · simp [hasTag, ht, h1]
      · simp [hasTag, ht, tagMatch_none_collapseNL h1]

/-! ## Lemmas about stripping and the normal forms -/

theorem dropTrailingWS_decomp (l : List Char) :
    l = dropTrailingWS l ++ (l.reverse.takeWhile isPyWS).reverse := by
  conv_lhs =>
    rw [← l.reverse_reverse,
      ← List.takeWhile_append_dropWhile (p := isPyWS) (l := l.reverse)]
  rw [List.reverse_append]
  rfl

theorem pyStrip_decomp (l : List Char) : ∃ a b, l = a ++ pyStrip l ++ b := by
  refine ⟨l.takeWhile isPyWS, ((l.dropWhile isPyWS).reverse.takeWhile isPyWS).reverse, ?_⟩
  conv_lhs =>
    rw [← List.takeWhile_append_dropWhile (p := isPyWS) (l := l),
      dropTrailingWS_decomp (l.dropWhile isPyWS)]
  rw [List.append_assoc]
  rfl

theorem hasTag_false_pyStrip {l : List Char} (h : hasTag l = false) :
    hasTag (pyStrip l) = false := by
  rcases pyStrip_decomp l with ⟨a, b, hab⟩
  rw [hab] at h
  exact (noTag_append_parts (noTag_append_parts h).1).2

theorem dropWhile_fix {l : List Char} (h : headOk l = true) :
    l.dropWhile isPyWS = l := by
  cases l with
  | nil => rfl
  | cons c t =>
    simp only [headOk, Bool.not_eq_true'] at h
    simp [List.dropWhile_cons, h]

theorem headOk_dropWhile (l : List Char) :
    headOk (l.dropWhile isPyWS) = true := by
  induction l with
  | nil => rfl
  | cons c t ih =>
    by_cases hc : isPyWS c
    · simpa [List.dropWhile_cons, hc] using ih
    · simp [List.dropWhile_cons, hc, headOk]

theorem headOk_dropTrailing {z : List Char} (h : headOk z = true) :
    headOk (dropTrailingWS z) = true := by
  have hd := dropTrailingWS_decomp z
  cases hdt : dropTrailingWS z with
  | nil => rfl
  | cons c w =>
    rw [hdt] at hd
    rw [hd] at h
    simpa [headOk] using h

theorem lastOk_dropTrailing (z : List Char) :
    lastOk (dropTrailingWS z) = true := by
  unfold lastOk
  have : (dropTrailingWS z).getLast? = (z.reverse.dropWhile isPyWS).head? := by
    unfold dropTrailingWS
    rw [List.getLast?_reverse]
  rw [this]
  have hok := headOk_dropWhile z.reverse
  cases hh : (z.reverse.dropWhile isPyWS) with
  | nil => rfl
  | cons c w =>
    rw [hh] at hok
    simpa [headOk] using hok

theorem pyStrip_headOk (l : List Char) : headOk (pyStrip l) = true :=
  headOk_dropTrailing (headOk_dropWhile l)

theorem pyStrip_lastOk (l : List Char) : lastOk (pyStrip l) = true :=
  lastOk_dropTrailing _

theorem pyStrip_fix {l : List Char} (h1 : headOk l = true)
    (h2 : lastOk l = true) : pyStrip l = l := by
  unfold pyStrip
  rw [dropWhile_fix h1]
  unfold dropTrailingWS
  have hrev : headOk l.reverse = true := by
    unfold lastOk at h2
    cases hh : l.reverse with
    | nil => rfl
    | cons c w =>
      have : l.getLast? = some c := by rw [← List.head?_reverse, hh]; rfl
      rw [this] at h2
      simpa [headOk] using h2
  rw [dropWhile_fix hrev, List.reverse_reverse]

theorem isPyWS_of_isHT {c : Char} (h : isHT c = true) : isPyWS c = true := by
  simp only [isHT, Bool.or_eq_true, decide_eq_true_eq] at h
  rcases h with h | h <;> simp [isPyWS, h]

theorem headOk_eq_head? (l : List Char) :
    headOk l = (match l.head? with | some c => !isPyWS c | none => true) := by
  cases l <;> rfl

theorem nextIsSpace_eq_head? (l : List Char) :
    nextIsSpace l = (match l.head? with | some c => decide (c = ' ') | none => false) := by
  cases l <;> rfl

theorem nl2_eq_heads (l : List Char) :
    nl2 l = (match l.head?, l.tail.head? with
      | some a, some b => decide (a = '\n') && decide (b = '\n')
      | _, _ => false) := by
  cases l with
  | nil => rfl
  | cons a t => cases t <;> rfl

theorem collapseSP_ne_nil : ∀ {l : List Char}, l ≠ [] → collapseSP l ≠ [] := by
  intro l
  induction l with
  | nil => intro h; exact absurd rfl h
  | cons c t ih =>
    intro _
    by_cases hc : isHT c
    · by_cases hn : nextHT t
      · have ht : t ≠ [] := by
          cases t with
          | nil => simp [nextHT] at hn
          | cons d u => simp
        simpa [collapseSP, hc, hn] using ih ht
      · simp [collapseSP, hc, hn]
    · simp [collapseSP, hc]

theorem collapseNL_ne_nil : ∀ {l : List Char}, l ≠ [] → collapseNL l ≠ [] := by
  intro l
  induction l with
  | nil => intro h; exact absurd rfl h
  | cons c t ih =>
    intro _
    by_cases hc : c = '\n'
    · by_cases hn : nl2 t
      · have ht : t ≠ [] := by
          cases t with
          | nil => simp [nl2] at hn
          | cons d u => simp
        simpa [collapseNL, hc, hn] using ih ht
      · simp [collapseNL, hc, hn]
    · simp [collapseNL, hc]

theorem getLast?_cons_ne_nil {c : Char} {z : List Char} (h : z ≠ []) :
    (c :: z).getLast? = z.getLast? := by
  cases z with
  | nil => exact absurd rfl h
  | cons a w => exact List.getLast?_cons_cons

theorem collapseSP_step (x y : Char) (u : List Char) :
    collapseSP (x :: y :: u) =
      if isHT x = true then
        (if nextHT (y :: u) = true then collapseSP (y :: u)
         else ' ' :: collapseSP (y :: u))
      else x :: collapseSP (y :: u) := rfl

theorem collapseNL_step (x : Char) (t : List Char) :
    collapseNL (x :: t) =
      if x = '\n' then
        (if nl2 t = true then collapseNL t else '\n' :: collapseNL t)
      else x :: collapseNL t := rfl

theorem collapseSP_getLast : ∀ {l : List Char} {c : Char},
    l.getLast? = some c → isHT c = false →
    (collapseSP l).getLast? = some c := by
  intro l
  induction l with
  | nil => intro c h _; simp at h
  | cons x t ih =>
    intro c h hc
    cases t with
    | nil =>
      have hx : x = c := by simpa using h
      subst hx
      simp [collapseSP, hc]
    | cons y u =>
      rw [List.getLast?_cons_cons] at h
      have hne : collapseSP (y :: u) ≠ [] := collapseSP_ne_nil (by simp)
      by_cases hx : isHT x
      · by_cases hn : nextHT (y :: u)
        · rw [collapseSP_step, if_pos hx, if_pos hn]
          exact ih h hc
        · rw [collapseSP_step, if_pos hx, if_neg hn, getLast?_cons_ne_nil hne]
          exact ih h hc
      · rw [collapseSP_step, if_neg hx, getLast?_cons_ne_nil hne]
        exact ih h hc

theorem collapseNL_getLast : ∀ {l : List Char} {c : Char},
    l.getLast? = some c → c ≠ '\n' →
    (collapseNL l).getLast? = some c := by
  intro l
  induction l with
  | nil => intro c h _; simp at h
  | cons x t ih =>
    intro c h hc
    cases t with
    | nil =>
      have hx : x = c := by simpa using h
      subst hx
      rw [collapseNL_cons_ne hc]
      rfl
    | cons y u =>
      rw [List.getLast?_cons_cons] at h
      have hne : collapseNL (y :: u) ≠ [] := collapseNL_ne_nil (by simp)
      by_cases hx : x = '\n'
      · by_cases hn : nl2 (y :: u)
        · rw [collapseNL_step, if_pos hx, if_pos hn]
          exact ih h hc
        · rw [collapseNL_step, if_pos hx, if_neg hn, getLast?_cons_ne_nil hne]
          exact ih h hc
      · rw [collapseNL_cons_ne hx, getLast?_cons_ne_nil hne]
        exact ih h hc

theorem collapseSP_unfold (c : Char) (t : List Char) :
    collapseSP (c :: t) =
      if isHT c = true then
        (if nextHT t = true then collapseSP t else ' ' :: collapseSP t)
      else c :: collapseSP t := rfl

theorem headOk_collapseSP {l : List Char} (h : headOk l = true) :
    headOk (collapseSP l) = true := by
  cases l with
  | nil => rfl
  | cons c t =>
    have hws : isPyWS c = false := by simpa [headOk] using h
    have hc : isHT c = false := by
      cases hh : isHT c with
      | false => rfl
      | true => rw [isPyWS_of_isHT hh] at hws; exact hws
    rw [collapseSP_unfold, if_neg (by simp [hc])]
    simpa [headOk] using hws

theorem headOk_collapseNL {l : List Char} (h : headOk l = true) :
    headOk (collapseNL l) = true := by
  rw [headOk_eq_head?, collapseNL_head, ← headOk_eq_head?]
  exact h

theorem lastOk_collapseSP {l : List Char} (h : lastOk l = true) :
    lastOk (collapseSP l) = true := by
  unfold lastOk at h ⊢
  cases hg : l.getLast? with
  | none =>
    have : l = [] := List.getLast?_eq_none_iff.mp hg
    subst this; rfl
  | some c =>
    rw [hg] at h
    have hws : isPyWS c = false := by simpa using h
    have hc : isHT c = false := by
      cases hh : isHT c with
      | false => rfl
      | true => rw [isPyWS_of_isHT hh] at hws; exact hws
    rw [collapseSP_getLast hg hc]
    simpa using hws

theorem lastOk_collapseNL {l : List Char} (h : lastOk l = true) :
    lastOk (collapseNL l) = true := by
  unfold lastOk at h ⊢
  cases hg : l.getLast? with
  | none =>
    have : l = [] := List.getLast?_eq_none_iff.mp hg
    subst this; rfl
  | some c =>
    rw [hg] at h
    have hws : isPyWS c = false := by simpa using h
    have hc : c ≠ '\n' := by
      intro he; rw [he] at hws; simp [isPyWS] at hws
    rw [collapseNL_getLast hg hc]
    simpa using hws

theorem spOk_suffix {c : Char} {l : List Char} (h : spOk (c :: l) = true) :
    spOk l = true := by
  simp only [spOk, Bool.and_eq_true] at h
  exact h.2

theorem nlOk_suffix {c : Char} {l : List Char} (h : nlOk (c :: l) = true) :
    nlOk l = true := by
  simp only [nlOk, Bool.and_eq_true] at h
  exact h.2

theorem spOk_collapseSP : ∀ (l : List Char), spOk (collapseSP l) = true := by
  intro l
  induction l with
  | nil => rfl
  | cons c t ih =>
    by_cases hc : isHT c
    · by_cases hn : nextHT t
      · rw [collapseSP_unfold, if_pos hc, if_pos hn]; exact ih
      · rw [collapseSP_unfold, if_pos hc, if_neg hn]
        have hns : nextIsSpace (collapseSP t) = false := by
          cases t with
          | nil => rfl
          | cons d u =>
            have hd : isHT d = false := by simpa [nextHT] using hn
            have hd' : d ≠ ' ' := by
              intro he; rw [he] at hd; simp [isHT] at hd
            rw [collapseSP_unfold, if_neg (by simp [hd])]
            simp [nextIsSpace, hd']
        simp [spOk, hns, ih]
    · have hc1 : c ≠ '\t' := by
        intro he; rw [he] at hc; simp [isHT] at hc
      have hc2 : c ≠ ' ' := by
        intro he; rw [he] at hc; simp [isHT] at hc
      rw [collapseSP_unfold, if_neg (by simp [hc])]
      simp [spOk, hc1, hc2, ih]

theorem spOk_collapseNL : ∀ {l : List Char}, spOk l = true →
    spOk (collapseNL l) = true := by
  intro l
  induction l with
  | nil => intro _; rfl
  | cons c t ih =>
    intro h
    have h3 := spOk_suffix h
    simp only [spOk, Bool.and_eq_true, Bool.not_eq_true'] at h
    by_cases hc : c = '\n'
    · subst hc
      by_cases hn : nl2 t
      · rw [collapseNL_step, if_pos rfl, if_pos hn]; exact ih h3
      · rw [collapseNL_step, if_pos rfl, if_neg hn]
        simp [spOk, ih h3, nextIsSpace]
    · rw [collapseNL_cons_ne hc]
      have hns : nextIsSpace (collapseNL t) = nextIsSpace t := by
        rw [nextIsSpace_eq_head?, nextIsSpace_eq_head?, collapseNL_head]
      have hcl1 : (c = '\t') = False := by
        simp only [Bool.and_eq_false_iff] at h
        rcases h.1.1 with h1
        simp [decide_eq_false_iff_not.mp h1]
      simp only [spOk, Bool.and_eq_true, Bool.not_eq_true']
      refine ⟨⟨by simp [hcl1], ?_⟩, ih h3⟩
      have h2 := h.1.2
      cases hsp : decide (c = ' ') with
      | false => simp
      | true =>
        rw [hsp] at h2
        simp only [Bool.true_and] at h2
        simp [hns, h2]

theorem spOk_fix : ∀ {l : List Char}, spOk l = true → collapseSP l = l := by
  intro l
  induction l with
  | nil => intro _; rfl
  | cons c t ih =>
    intro h
    have h3 := spOk_suffix h
    simp only [spOk, Bool.and_eq_true, Bool.not_eq_true'] at h
    by_cases hc : isHT c
    · have hc2 : c = ' ' := by
        have h1 : c ≠ '\t' := decide_eq_false_iff_not.mp h.1.1
        simp only [isHT, Bool.or_eq_true, decide_eq_true_eq] at hc
        tauto
      subst hc2
      have hn : nextHT t = false := by
        cases t with
        | nil => rfl
        | cons d u =>
          simp only [nextHT]
          cases hd : isHT d with
          | false => rfl
          | true =>
            simp only [isHT, Bool.or_eq_true, decide_eq_true_eq] at hd
            rcases hd with hd | hd
            · subst hd
              have := h.1.2
              simp [nextIsSpace] at this
            · subst hd
              simp [spOk] at h3
      rw [collapseSP_unfold, if_pos (by decide), if_neg (by simp [hn]), ih h3]
    · rw [collapseSP_unfold, if_neg (by simp [hc]), ih h3]

theorem nl2_false_of_head {t : List Char} (h : t.head? ≠ some '\n') :
    nl2 t = false := by
  cases t with
  | nil => rfl
  | cons a u =>
    cases u with
    | nil => rfl
    | cons b v =>
      have ha : a ≠ '\n' := by
        intro he; exact h (by simp [he])
      simp [nl2, ha]

theorem nl2_cons_nl (w : List Char) :
    nl2 ('\n' :: w) = (match w.head? with
      | some b => decide (b = '\n') | none => false) := by
  cases w <;> simp [nl2]

theorem nlOk_collapseNL : ∀ (l : List Char), nlOk (collapseNL l) = true := by
  intro l
  induction l with
  | nil => rfl
  | cons c t ih =>
    by_cases hc : c = '\n'
    · subst hc
      by_cases hn : nl2 t
      · rw [collapseNL_step, if_pos rfl, if_pos hn]; exact ih
      · rw [collapseNL_step, if_pos rfl, if_neg hn]
        have hz : nl2 (collapseNL t) = false := by
          cases t with
          | nil => rfl
          | cons d u =>
            by_cases hd : d = '\n'
            · subst hd
              have hu : u.head? ≠ some '\n' := by
                intro he
                rw [nl2_cons_nl, he] at hn
                simp at hn
              have hnu : nl2 u = false := nl2_false_of_head hu
              rw [collapseNL_step, if_pos rfl, if_neg (by simp [hnu]),
                nl2_cons_nl, collapseNL_head]
              cases hhu : u.head? with
              | none => rfl
              | some b =>
                have hb : b ≠ '\n' := by
                  intro he; exact hu (by rw [hhu, he])
                simp [hb]
            · rw [collapseNL_cons_ne hd]
              exact nl2_false_of_head (by simp [hd])
        simp [nlOk, hz, ih]
    · rw [collapseNL_cons_ne hc]
      simp [nlOk, hc, ih]

theorem nlOk_fix : ∀ {l : List Char}, nlOk l = true → collapseNL l = l := by
  intro l
  induction l with
  | nil => intro _; rfl
  | cons c t ih =>
    intro h
    have h3 := nlOk_suffix h
    by_cases hc : c = '\n'
    · subst hc
      have hn : nl2 t = false := by
        simp only [nlOk, Bool.and_eq_true, Bool.not_eq_true'] at h
        simpa using h.1
      rw [collapseNL_step, if_pos rfl, if_neg (by simp [hn]), ih h3]
    · rw [collapseNL_cons_ne hc, ih h3]

/-! ## Idempotence of the content normalizer -/

/-- The full normalization pipeline on character lists. -/
theorem to_plain_text_eq {x : String} (hx : x ≠ "") :
    to_plain_text x =
      String.mk (collapseNL (collapseSP (pyStrip (removeNbsp
        (removeTags x.data))))) := by
  rw [to_plain_text, if_neg hx]

theorem mk_eq_empty_iff {z : List Char} : String.mk z = "" ↔ z = [] := by
  constructor
  · intro h
    have := congrArg String.data h
    simpa using this
  · intro h; subst h; rfl

/-! ## Claim theorems -/

/-- C6 (counterexample): the content normalizer `to_plain_text` is **not**
idempotent on every input: deleting the `"&nbsp;"` occurrence of
`"&nb&nbsp;sp;"` splices together a fresh `"&nbsp;"`, which a second
application then deletes. -/
theorem c6_normalize_not_idem_counterexample :
    to_plain_text (to_plain_text "&nb&nbsp;sp;") ≠ to_plain_text "&nb&nbsp;sp;"
      ∧ to_plain_text "&nb&nbsp;sp;" = "&nbsp;"
      ∧ to_plain_text (to_plain_text "&nb&nbsp;sp;") = "" := by
  refine ⟨by decide, by decide, by decide⟩

/-- C6 (amended): the content normalizer is idempotent on every input whose
normalized output contains no literal `"&nbsp;"` (removal of `"&nbsp;"` can
splice adjacent text into a new occurrence; on all other inputs
`normalize(normalize(x)) = normalize(x)`). -/
theorem c6_normalize_idem_amended (x : String)
    (h : hasNbsp (to_plain_text x).data = false) :
    to_plain_text (to_plain_text x) = to_plain_text x := by
  by_cases hx : x = ""
  · subst hx; rfl
  · rw [to_plain_text_eq hx] at h ⊢
    have hTag : hasTag (collapseNL (collapseSP (pyStrip (removeNbsp
        (removeTags x.data))))) = false :=
      hasTag_false_collapseNL (hasTag_false_collapseSP (hasTag_false_pyStrip
        (hasTag_false_removeNbsp _ (hasTag_removeTags x.data))))
    have hHead : headOk (collapseNL (collapseSP (pyStrip (removeNbsp
        (removeTags x.data))))) = true :=
      headOk_collapseNL (headOk_collapseSP (pyStrip_headOk _))
    have hLast : lastOk (collapseNL (collapseSP (pyStrip (removeNbsp
        (removeTags x.data))))) = true :=
      lastOk_collapseNL (lastOk_collapseSP (pyStrip_lastOk _))
    have hSp : spOk (collapseNL (collapseSP (pyStrip (removeNbsp
        (removeTags x.data))))) = true :=
      spOk_collapseNL (spOk_collapseSP _)
    have hNl : nlOk (collapseNL (collapseSP (pyStrip (removeNbsp
        (removeTags x.data))))) = true :=
      nlOk_collapseNL _
    have hNbsp : hasNbsp (collapseNL (collapseSP (pyStrip (removeNbsp
        (removeTags x.data))))) = false := h
    by_cases hz : collapseNL (collapseSP (pyStrip (removeNbsp
        (removeTags x.data)))) = []
    · rw [hz]
      rfl
    · rw [to_plain_text_eq (fun he => hz (mk_eq_empty_iff.mp he))]
      show String.mk (collapseNL (collapseSP (pyStrip (removeNbsp
        (removeTags (collapseNL (collapseSP (pyStrip (removeNbsp
          (removeTags x.data)))))))))) = _
      rw [removeTags_of_noTag hTag, removeNbsp_of_noNbsp hNbsp,
        pyStrip_fix hHead hLast, spOk_fix hSp, nlOk_fix hNl]

/-- C6 witness: a concrete input satisfying the amended hypothesis. -/
theorem c6_normalize_idem_witness :
    hasNbsp (to_plain_text "a&nbsp;b <p>c</p>").data = false ∧
    to_plain_text (to_plain_text "a&nbsp;b <p>c</p>")
      = to_plain_text "a&nbsp;b <p>c</p>" :=
  ⟨by decide, c6_normalize_idem_amended "a&nbsp;b <p>c</p>" (by decide)⟩

theorem removeTags_append_of_ne : ∀ (pre : List Char),
    (∀ c ∈ pre, c ≠ '<') → ∀ (l : List Char),
    removeTags (pre ++ l) = pre ++ removeTags l := by
  intro pre
  induction pre with
  | nil => intro _ l; rfl
  | cons c p ih =>
    intro hpre l
    simp only [List.cons_append]
    rw [removeTags_cons_ne (hpre c (List.mem_cons.mpr (Or.inl rfl))),
      ih (fun d hd => hpre d (List.mem_cons_of_mem _ hd)) l]

theorem removeNbsp_nbsp_append (z : List Char) :
    removeNbsp (nbspChars ++ z) = removeNbsp z := by
  have hstart : listStarts nbspChars (nbspChars ++ z) = true :=
    listStarts_self_append nbspChars z
  have := removeNbsp_start (c := '&') (t := ['n', 'b', 's', 'p', ';'] ++ z)
    hstart
  simpa [nbspChars] using this

/-- C7 (counterexample): the normalizer does **not** replace a literal
`"&nbsp;"` with an ordinary space; it deletes it outright. -/
theorem c7_nbsp_counterexample :
    to_plain_text "a&nbsp;b" = "ab" ∧ to_plain_text "a&nbsp;b" ≠ "a b" :=
  ⟨by decide, by decide⟩

/-- C7 (amended): the normalizer replaces each literal non-breaking-space
escape sequence `"&nbsp;"` with the **empty string** (it deletes it); in
particular a leading `"&nbsp;"` never survives and never leaves a space:
prepending it to any input leaves the normalized output unchanged. -/
theorem c7_nbsp_removed_amended (r : String) :
    to_plain_text ("&nbsp;" ++ r) = to_plain_text r := by
  have hne : ("&nbsp;" ++ r) ≠ "" := by
    intro he
    have hd := congrArg String.data he
    rw [String.data_append] at hd
    rcases List.append_eq_nil.mp hd with ⟨h1, _⟩
    exact absurd h1 (by decide)
  rw [to_plain_text_eq hne]
  have hdata : ("&nbsp;" ++ r).data = nbspChars ++ r.data := by
    rw [String.data_append]
    rfl
  rw [hdata, removeTags_append_of_ne nbspChars (by decide) r.data,
    removeNbsp_nbsp_append]
  by_cases hr : r = ""
  · subst hr; rfl
  · rw [to_plain_text_eq hr]

/-- C8: the date parser maps `"21st March 2024"` and `"March 21 2024"` to
2024-03-21 and `"Spring 2024"` to `None`. -/
theorem c8_parse_date_examples :
    parse_date "21st March 2024" = some ⟨2024, 3, 21⟩ ∧
    parse_date "March 21 2024" = some ⟨2024, 3, 21⟩ ∧
    parse_date "Spring 2024" = none :=
  ⟨by decide, by decide, by decide⟩

/-- C10: with neither `cutoff` nor `cutoff_year`, the cutoff date defaults to
2025-01-01; with only a (truthy, numeric, in-range) `cutoff_year`, it is
January 1 of that year. -/
theorem c10_cutoff_defaults :
    initCutoffDate none none = some ⟨2025, 1, 1⟩ ∧
    (∀ (y : String) (n : Nat), pyIntOfString y = some n → 1 ≤ n → n ≤ 9999 →
      initCutoffDate none (some y) = some ⟨n, 1, 1⟩) := by
  refine ⟨by decide, ?_⟩
  intro y n h h1 h2
  have hy : y ≠ "" := by
    intro he
    subst he
    simp [pyIntOfString] at h
  have hdays : (1 : Nat) ≤ daysInMonth n 1 := by
    simp [daysInMonth]
  have ht : optTruthy (some y) = true := by simp [optTruthy, hy]
  unfold initCutoffDate
  rw [if_neg (by simp [optTruthy]), if_pos ht]
  dsimp only
  rw [h]
  dsimp only
  unfold mkPyDate
  rw [if_pos ⟨h1, h2, by omega, by omega, by omega, hdays⟩]

/-- C10 witness: the concrete spider arguments `cutoff_year="2023"`. -/
theorem c10_cutoff_defaults_witness :
    pyIntOfString "2023" = some 2023 ∧
    initCutoffDate none (some "2023") = some ⟨2023, 1, 1⟩ :=
  ⟨by decide, c10_cutoff_defaults.2 "2023" 2023 (by decide) (by decide)
    (by decide)⟩

/-- C5: Ledger semantics of `SeenStore`. `has u` is false on a fresh store and
is unaffected by adds of other URLs; after `add u` it is true, and stays true
when the store is reopened from its persisted backing table in a fresh
process (`CREATE TABLE IF NOT EXISTS` keeps the rows); `add` is idempotent
(`INSERT OR IGNORE`), so a repeated add changes nothing, keeps the first-seen
timestamp, and a URL has at most one row. -/
theorem c5_ledger_contract :
    (∀ (u : String), (openStore none).has u = false) ∧
    (∀ (s : SeenStore) (u now : String), (s.add u now).has u = true) ∧
    (∀ (s : SeenStore) (u : String), (openStore (some s)).has u = s.has u) ∧
    (∀ (s : SeenStore) (u n1 n2 : String), (s.add u n1).add u n2 = s.add u n1) ∧
    (∀ (s : SeenStore) (u v now : String), v ≠ u →
      (s.add v now).has u = s.has u) ∧
    (∀ (s : SeenStore) (u now : String), s.has u = false →
      ((s.add u now).rows.filter (fun row => row.1 = u)).length = 1) := by
  refine ⟨?_, ?_, ?_, ?_, ?_, ?_⟩
  · intro u; rfl
  · intro s u now
    unfold SeenStore.add
    by_cases h : s.has u
    · rw [if_pos h]; exact h
    · rw [if_neg h]
      simp [SeenStore.has, List.any_append]
  · intro s u; rfl
  · intro s u n1 n2
    have h : (s.add u n1).has u = true := by
      unfold SeenStore.add
      by_cases h : s.has u
      · rw [if_pos h]; exact h
      · rw [if_neg h]
        simp [SeenStore.has, List.any_append]
    show (if (s.add u n1).has u = true then s.add u n1
      else SeenStore.mk ((s.add u n1).rows ++ [(u, n2)])) = s.add u n1
    rw [if_pos h]
  · intro s u v now hvu
    unfold SeenStore.add
    by_cases h : s.has v
    · rw [if_pos h]
    · rw [if_neg h]
      simp [SeenStore.has, List.any_append, hvu]
  · intro s u now h
    unfold SeenStore.add
    rw [if_neg (by simp [h])]
    have h2 : s.rows.any (fun row => row.1 = u) = false := h
    have hnone : s.rows.filter (fun row => row.1 = u) = [] := by
      rw [List.filter_eq_nil_iff]
      intro row hrow heq
      have h3 : s.rows.any (fun row => row.1 = u) = true :=
        List.any_eq_true.mpr ⟨row, hrow, heq⟩
      rw [h3] at h2
      exact Bool.noConfusion h2
    show ((s.rows ++ [(u, now)]).filter (fun row => row.1 = u)).length = 1
    rw [List.filter_append, hnone]
    simp

/-- C5 witness: the contract applied to concrete stores and URLs, with both
hypotheses discharged on concrete inputs. -/
theorem c5_ledger_contract_witness :
    (openStore none).has "u" = false ∧
    ((openStore none).add "u" "t1").has "u" = true ∧
    (openStore (some ⟨[("u", "t1")]⟩)).has "u" = SeenStore.has ⟨[("u", "t1")]⟩ "u" ∧
    ((openStore none).add "u" "t1").add "u" "t2" = (openStore none).add "u" "t1" ∧
    ((openStore none).add "v" "t1").has "u" = (openStore none).has "u" ∧
    (((openStore none).add "u" "t1").rows.filter (fun row => row.1 = "u")).length = 1 :=
  ⟨c5_ledger_contract.1 "u",
   c5_ledger_contract.2.1 (openStore none) "u" "t1",
   c5_ledger_contract.2.2.1 ⟨[("u", "t1")]⟩ "u",
   c5_ledger_contract.2.2.2.1 (openStore none) "u" "t1" "t2",
   c5_ledger_contract.2.2.2.2.1 (openStore none) "u" "v" "t1" (by decide),
   c5_ledger_contract.2.2.2.2.2 (openStore none) "u" "t1" (by decide)⟩

/-- C3: when the extracted date parses to a day strictly earlier than the
run's cutoff, `parse_article` yields no record, leaves the Ledger untouched,
and performs no extraction step beyond the date check. -/
theorem c3_cutoff_skip (urljoin : String → String → String)
    (detectFn : Option (String → Option String)) (cutoff : PyDate)
    (seen : SeenStore) (now : String) (r : ArticleResponse)
    (su : Option String) (d : PyDate) (h1 : parsedDateOf r = some d)
    (h2 : pyDateLt d cutoff = true) :
    parse_article urljoin detectFn cutoff seen now r su
      = (none, seen, [Step.title, Step.date]) := by
  unfold parse_article
  simp only [h1]
  rw [if_pos h2]

/-- C3 witness: an article dated 2020-01-01 against cutoff 2025-01-01. -/
theorem c3_cutoff_skip_witness :
    parsedDateOf ⟨"https://www.themanufacturer.com/articles/x", none, none,
      some "1 January 2020", [], none, none, none, none, [], [], []⟩
        = some ⟨2020, 1, 1⟩ ∧
    pyDateLt ⟨2020, 1, 1⟩ ⟨2025, 1, 1⟩ = true ∧
    parse_article (fun _ h => h) none ⟨2025, 1, 1⟩ ⟨[]⟩ "t"
      ⟨"https://www.themanufacturer.com/articles/x", none, none,
        some "1 January 2020", [], none, none, none, none, [], [], []⟩
      (some "https://www.themanufacturer.com/channel/s")
      = (none, ⟨[]⟩, [Step.title, Step.date]) :=
  ⟨by decide, by decide,
   c3_cutoff_skip (fun _ h => h) none ⟨2025, 1, 1⟩ ⟨[]⟩ "t"
     ⟨"https://www.themanufacturer.com/articles/x", none, none,
       some "1 January 2020", [], none, none, none, none, [], [], []⟩
     (some "https://www.themanufacturer.com/channel/s") ⟨2020, 1, 1⟩
     (by decide) (by decide)⟩

/-- C4: when the date string is absent, empty, or unparseable
(`parsedDateOf r = none`), the cutoff gate does not fire for any cutoff:
a record is produced with a null `date_iso`, and the URL is added to the
Ledger. -/
theorem c4_unparseable_date_processed (urljoin : String → String → String)
    (detectFn : Option (String → Option String)) (cutoff : PyDate)
    (seen : SeenStore) (now : String) (r : ArticleResponse)
    (su : Option String) (h : parsedDateOf r = none) :
    ∃ it, (parse_article urljoin detectFn cutoff seen now r su).1 = some it
      ∧ it.date_iso = none
      ∧ (parse_article urljoin detectFn cutoff seen now r su).2.1
          = seen.add r.url now := by
  unfold parse_article
  simp only [h]
  exact ⟨_, rfl, by simp, rfl⟩

/-- C4 witness: an article whose date selector text is the unparseable
`"Spring 2024"`. -/
theorem c4_unparseable_date_processed_witness :
    parsedDateOf ⟨"https://www.themanufacturer.com/articles/y", none, none,
      some "Spring 2024", [], none, none, none, none, [], [], []⟩ = none ∧
    (∃ it, (parse_article (fun _ h => h) none ⟨2025, 1, 1⟩ ⟨[]⟩ "t"
      ⟨"https://www.themanufacturer.com/articles/y", none, none,
        some "Spring 2024", [], none, none, none, none, [], [], []⟩
      none).1 = some it
      ∧ it.date_iso = none
      ∧ (parse_article (fun _ h => h) none ⟨2025, 1, 1⟩ ⟨[]⟩ "t"
          ⟨"https://www.themanufacturer.com/articles/y", none, none,
            some "Spring 2024", [], none, none, none, none, [], [], []⟩
          none).2.1
        = SeenStore.add ⟨[]⟩ "https://www.themanufacturer.com/articles/y" "t") :=
  ⟨by decide,
   c4_unparseable_date_processed (fun _ h => h) none ⟨2025, 1, 1⟩ ⟨[]⟩ "t"
     ⟨"https://www.themanufacturer.com/articles/y", none, none,
       some "Spring 2024", [], none, none, none, none, [], [], []⟩
     none (by decide)⟩

theorem dedupGo_sublist : ∀ (acc l : List String),
    (dedupGo acc l).Sublist l := by
  intro acc l
  induction l generalizing acc with
  | nil => exact List.Sublist.refl []
  | cons u rest ih =>
    by_cases h : u ∈ acc
    · simp only [dedupGo, if_pos h]
      exact (ih acc).cons u
    · simp only [dedupGo, if_neg h]
      exact (ih (u :: acc)).cons₂ u

theorem mem_dedupGo : ∀ (acc l : List String) (x : String),
    x ∈ dedupGo acc l ↔ (x ∈ l ∧ x ∉ acc) := by
  intro acc l
  induction l generalizing acc with
  | nil => intro x; simp [dedupGo]
  | cons u rest ih =>
    intro x
    by_cases h : u ∈ acc
    · rw [show dedupGo acc (u :: rest) = dedupGo acc rest from by
        simp only [dedupGo, if_pos h], ih acc x]
      simp only [List.mem_cons]
      constructor
      · rintro ⟨h1, h2⟩; exact ⟨Or.inr h1, h2⟩
      · rintro ⟨h1 | h1, h2⟩
        · subst h1; exact absurd h h2
        · exact ⟨h1, h2⟩
    · rw [show dedupGo acc (u :: rest) = u :: dedupGo (u :: acc) rest from by
        simp only [dedupGo, if_neg h]]
      simp only [List.mem_cons, ih (u :: acc) x]
      constructor
      · rintro (h1 | ⟨h1, h2⟩)
        · subst h1; exact ⟨Or.inl rfl, h⟩
        · exact ⟨Or.inr h1, fun hx => h2 (Or.inr hx)⟩
      · rintro ⟨h1 | h1, h2⟩
        · exact Or.inl h1
        · by_cases hxu : x = u
          · exact Or.inl hxu
          · refine Or.inr ⟨h1, fun hx => ?_⟩
            rcases hx with hx | hx
            · exact hxu hx
            · exact h2 hx

theorem dedupGo_nodup : ∀ (acc l : List String), (dedupGo acc l).Nodup := by
  intro acc l
  induction l generalizing acc with
  | nil => exact List.nodup_nil
  | cons u rest ih =>
    by_cases h : u ∈ acc
    · simp only [dedupGo, if_pos h]
      exact ih acc
    · simp only [dedupGo, if_neg h]
      refine List.Nodup.cons ?_ (ih (u :: acc))
      intro hmem
      exact ((mem_dedupGo (u :: acc) rest u).mp hmem).2 (List.mem_cons.mpr
        (Or.inl rfl))

/-- C9: for an article that passes the cutoff gate, the emitted record's
`internal_links` is the list of hrefs of the located body, absolutized
against the article URL, restricted to internal ones, deduplicated while
preserving first-seen order (a sublist of the raw internal list, without
duplicates, containing exactly its elements), and `None` when that list is
empty. -/
theorem c9_internal_links (urljoin : String → String → String)
    (detectFn : Option (String → Option String)) (cutoff : PyDate)
    (seen : SeenStore) (now : String) (r : ArticleResponse)
    (su : Option String)
    (hg : ∀ d, parsedDateOf r = some d → pyDateLt d cutoff = false) :
    ∃ it, (parse_article urljoin detectFn cutoff seen now r su).1 = some it
      ∧ it.internal_links
          = (if (internalLinksOf urljoin r).isEmpty then none
             else some (internalLinksOf urljoin r))
      ∧ internalLinksOf urljoin r = pyDedup (rawInternalLinks urljoin r)
      ∧ (internalLinksOf urljoin r).Sublist (rawInternalLinks urljoin r)
      ∧ (internalLinksOf urljoin r).Nodup
      ∧ (∀ u, u ∈ internalLinksOf urljoin r ↔ u ∈ rawInternalLinks urljoin r) := by
  have hskip : (match parsedDateOf r with
      | some d => pyDateLt d cutoff
      | none => false) = false := by
    cases hp : parsedDateOf r with
    | some d => exact hg d hp
    | none => rfl
  unfold parse_article
  rw [hskip]
  simp only [Bool.false_eq_true, if_false]
  refine ⟨_, rfl, rfl, rfl, dedupGo_sublist [] _, dedupGo_nodup [] _, ?_⟩
  intro u
  rw [show internalLinksOf urljoin r = dedupGo [] (rawInternalLinks urljoin r)
    from rfl, mem_dedupGo]
  simp

/-- C9 witness: a passing article with three body hrefs, two of them internal
and one external, one a relative duplicate of another after resolution. -/
theorem c9_internal_links_witness :
    (∀ d, parsedDateOf ⟨"https://www.themanufacturer.com/articles/z", none,
      none, none, [],
      some ⟨"<p>b</p>",
        ["https://www.themanufacturer.com/articles/a",
         "https://example.org/out",
         "https://www.themanufacturer.com/articles/a"]⟩,
      none, none, none, [], [], []⟩ = some d → pyDateLt d ⟨2025, 1, 1⟩ = false) ∧
    (∃ it, (parse_article (fun _ h => h) none ⟨2025, 1, 1⟩ ⟨[]⟩ "t"
      ⟨"https://www.themanufacturer.com/articles/z", none, none, none, [],
        some ⟨"<p>b</p>",
          ["https://www.themanufacturer.com/articles/a",
           "https://example.org/out",
           "https://www.themanufacturer.com/articles/a"]⟩,
        none, none, none, [], [], []⟩ none).1 = some it
      ∧ it.internal_links
          = (if (internalLinksOf (fun _ h => h)
                ⟨"https://www.themanufacturer.com/articles/z", none, none,
                  none, [],
                  some ⟨"<p>b</p>",
                    ["https://www.themanufacturer.com/articles/a",
                     "https://example.org/out",
                     "https://www.themanufacturer.com/articles/a"]⟩,
                  none, none, none, [], [], []⟩).isEmpty then none
             else some (internalLinksOf (fun _ h => h)
                ⟨"https://www.themanufacturer.com/articles/z", none, none,
                  none, [],
                  some ⟨"<p>b</p>",
                    ["https://www.themanufacturer.com/articles/a",
                     "https://example.org/out",
                     "https://www.themanufacturer.com/articles/a"]⟩,
                  none, none, none, [], [], []⟩))
      ∧ internalLinksOf (fun _ h => h)
          ⟨"https://www.themanufacturer.com/articles/z", none, none, none, [],
            some ⟨"<p>b</p>",
              ["https://www.themanufacturer.com/articles/a",
               "https://example.org/out",
               "https://www.themanufacturer.com/articles/a"]⟩,
            none, none, none, [], [], []⟩
          = pyDedup (rawInternalLinks (fun _ h => h)
            ⟨"https://www.themanufacturer.com/articles/z", none, none, none, [],
              some ⟨"<p>b</p>",
                ["https://www.themanufacturer.com/articles/a",
                 "https://example.org/out",
                 "https://www.themanufacturer.com/articles/a"]⟩,
              none, none, none, [], [], []⟩)
      ∧ (internalLinksOf (fun _ h => h)
          ⟨"https://www.themanufacturer.com/articles/z", none, none, none, [],
            some ⟨"<p>b</p>",
              ["https://www.themanufacturer.com/articles/a",
               "https://example.org/out",
               "https://www.themanufacturer.com/articles/a"]⟩,
            none, none, none, [], [], []⟩).Sublist
          (rawInternalLinks (fun _ h => h)
            ⟨"https://www.themanufacturer.com/articles/z", none, none, none, [],
              some ⟨"<p>b</p>",
                ["https://www.themanufacturer.com/articles/a",
                 "https://example.org/out",
                 "https://www.themanufacturer.com/articles/a"]⟩,
              none, none, none, [], [], []⟩)
      ∧ (internalLinksOf (fun _ h => h)
          ⟨"https://www.themanufacturer.com/articles/z", none, none, none, [],
            some ⟨"<p>b</p>",
              ["https://www.themanufacturer.com/articles/a",
               "https://example.org/out",
               "https://www.themanufacturer.com/articles/a"]⟩,
            none, none, none, [], [], []⟩).Nodup
      ∧ (∀ u, u ∈ internalLinksOf (fun _ h => h)
          ⟨"https://www.themanufacturer.com/articles/z", none, none, none, [],
            some ⟨"<p>b</p>",
              ["https://www.themanufacturer.com/articles/a",
               "https://example.org/out",
               "https://www.themanufacturer.com/articles/a"]⟩,
            none, none, none, [], [], []⟩
          ↔ u ∈ rawInternalLinks (fun _ h => h)
            ⟨"https://www.themanufacturer.com/articles/z", none, none, none, [],
              some ⟨"<p>b</p>",
                ["https://www.themanufacturer.com/articles/a",
                 "https://example.org/out",
                 "https://www.themanufacturer.com/articles/a"]⟩,
              none, none, none, [], [], []⟩)) :=
  ⟨fun d hd => by
    rw [show parsedDateOf ⟨"https://www.themanufacturer.com/articles/z", none,
      none, none, [],
      some ⟨"<p>b</p>",
        ["https://www.themanufacturer.com/articles/a",
         "https://example.org/out",
         "https://www.themanufacturer.com/articles/a"]⟩,
      none, none, none, [], [], []⟩ = none from by decide] at hd
    exact Option.noConfusion hd,
   c9_internal_links (fun _ h => h) none ⟨2025, 1, 1⟩ ⟨[]⟩ "t"
     ⟨"https://www.themanufacturer.com/articles/z", none, none, none, [],
       some ⟨"<p>b</p>",
         ["https://www.themanufacturer.com/articles/a",
          "https://example.org/out",
          "https://www.themanufacturer.com/articles/a"]⟩,
       none, none, none, [], [], []⟩ none
     (fun d hd => by
       rw [show parsedDateOf ⟨"https://www.themanufacturer.com/articles/z",
         none, none, none, [],
         some ⟨"<p>b</p>",
           ["https://www.themanufacturer.com/articles/a",
            "https://example.org/out",
            "https://www.themanufacturer.com/articles/a"]⟩,
         none, none, none, [], [], []⟩ = none from by decide] at hd
       exact Option.noConfusion hd)⟩

/-! ## Lemmas about `parse_section` -/

theorem pySortedSet_sorted_lt (l : List String) :
    (pySortedSet l).Sorted (· < ·) := by
  have hs : (pySortedSet l).Sorted (fun a b => a ≤ b) :=
    List.sorted_insertionSort _ _
  have hn : (pySortedSet l).Nodup :=
    (List.perm_insertionSort _ _).nodup_iff.mpr (List.nodup_dedup l)
  exact hs.lt_of_le hn

theorem mem_pySortedSet {l : List String} {x : String} :
    x ∈ pySortedSet l ↔ x ∈ l := by
  unfold pySortedSet
  rw [(List.perm_insertionSort _ _).mem_iff, List.mem_dedup]

theorem mem_sectionCandidates_resolved {urljoin : String → String → String}
    {resp : SectionResponse} {u : String}
    (h : u ∈ sectionCandidates urljoin resp) :
    ∃ a, u = urljoin resp.url a := by
  unfold sectionCandidates at h
  rw [mem_pySortedSet] at h
  rcases List.mem_map.mp h with ⟨a, _, ha⟩
  exact ⟨a, ha.symm⟩

theorem mkArticleReqs_urls (urljoin : String → String → String)
    (base : String) (su : Option String) : ∀ (c : Nat) (l : List String),
    (mkArticleReqs urljoin base su c l).filterMap articleUrlOf
      = l.map (urljoin base) := by
  intro c l
  induction l generalizing c with
  | nil => rfl
  | cons u rest ih =>
    simp only [mkArticleReqs, List.filterMap_cons, articleUrlOf, List.map_cons]
    rw [ih (c + 1)]

theorem mkArticleReqs_no_listing (urljoin : String → String → String)
    (base : String) (su : Option String) : ∀ (c : Nat) (l : List String)
    (rq : Request), rq ∈ mkArticleReqs urljoin base su c l →
    isListingRequest rq = false := by
  intro c l
  induction l generalizing c with
  | nil => intro rq h; simp [mkArticleReqs] at h
  | cons u rest ih =>
    intro rq h
    simp only [mkArticleReqs, List.mem_cons] at h
    rcases h with h | h
    · subst h; rfl
    · exact ih (c + 1) rq h

theorem mkArticleReqs_filter_listing (urljoin : String → String → String)
    (base : String) (su : Option String) (c : Nat) (l : List String) :
    (mkArticleReqs urljoin base su c l).filter isListingRequest = [] := by
  rw [List.filter_eq_nil_iff]
  intro rq hrq
  rw [mkArticleReqs_no_listing urljoin base su c l rq hrq]
  exact Bool.false_ne_true

/-- C1: on a section listing page with at least 6 discoverable candidate
links, none of them seen, processed with `article_count = 0`, the controller
dispatches exactly 5 article fetches, whose URLs are in strictly ascending
lexicographic order, are candidate resolved URLs, and are unseen; and it
issues no listing-pagination request. The hypothesis `Hjoin` states that the
external `urljoin` is idempotent on already-resolved URLs. -/
theorem c1_first_page_dispatch (urljoin : String → String → String)
    (seen : String → Bool) (resp : SectionResponse) (su : Option String)
    (Hjoin : ∀ s, urljoin resp.url (urljoin resp.url s) = urljoin resp.url s)
    (Hunseen : ∀ u ∈ sectionCandidates urljoin resp, seen u = false)
    (Hlen : 6 ≤ (sectionCandidates urljoin resp).length) :
    ((parse_section urljoin seen resp su 0).filterMap articleUrlOf).length = 5
    ∧ ((parse_section urljoin seen resp su 0).filterMap
        articleUrlOf).Sorted (· < ·)
    ∧ (∀ u ∈ (parse_section urljoin seen resp su 0).filterMap articleUrlOf,
        u ∈ sectionCandidates urljoin resp ∧ seen u = false)
    ∧ (∀ rq ∈ parse_section urljoin seen resp su 0,
        isListingRequest rq = false) := by
  have hnew : newArticlesOf urljoin seen resp = sectionCandidates urljoin resp := by
    unfold newArticlesOf
    rw [List.filter_eq_self]
    intro u hu
    rw [Hunseen u hu]
    rfl
  have hdisp : dispatchedOf urljoin seen resp 0
      = (sectionCandidates urljoin resp).take 5 := by
    unfold dispatchedOf pyTakeInt
    rw [hnew]
    rw [if_pos (by decide : (0 : Int) ≤ 5 - ((0 : Nat) : Int))]
    rw [show ((5 : Int) - ((0 : Nat) : Int)).toNat = 5 from by decide]
  have hlen5 : (dispatchedOf urljoin seen resp 0).length = 5 := by
    rw [hdisp, List.length_take]
    omega
  have hpag : paginationOf urljoin seen resp su 0 = [] := by
    unfold paginationOf
    rw [hlen5]
    norm_num
  have hout : parse_section urljoin seen resp su 0
      = mkArticleReqs urljoin resp.url su 0 (dispatchedOf urljoin seen resp 0) := by
    unfold parse_section
    rw [hpag, List.append_nil]
  have hsubmem : ∀ u ∈ dispatchedOf urljoin seen resp 0,
      u ∈ sectionCandidates urljoin resp := by
    intro u hu
    rw [hdisp] at hu
    exact List.mem_of_mem_take hu
  have hurls : (parse_section urljoin seen resp su 0).filterMap articleUrlOf
      = dispatchedOf urljoin seen resp 0 := by
    rw [hout, mkArticleReqs_urls]
    rw [List.map_congr_left (fun u hu => ?_), List.map_id]
    rcases mem_sectionCandidates_resolved (hsubmem u hu) with ⟨a, ha⟩
    rw [ha, Hjoin a, ← ha]
    rfl
  refine ⟨?_, ?_, ?_, ?_⟩
  · rw [hurls, hlen5]
  · rw [hurls, hdisp]
    exact (pySortedSet_sorted_lt _).sublist (List.take_sublist _ _)
  · intro u hu
    rw [hurls] at hu
    exact ⟨hsubmem u hu, Hunseen u (hsubmem u hu)⟩
  · intro rq hrq
    rw [hout] at hrq
    exact mkArticleReqs_no_listing urljoin resp.url su 0 _ rq hrq

/-- C1 witness: a listing page exposing six unseen `/articles/` links. -/
theorem c1_first_page_dispatch_witness :
    (∀ s, (fun (_ u : String) => u) "https://www.themanufacturer.com/channel/s"
      ((fun (_ u : String) => u) "https://www.themanufacturer.com/channel/s" s)
      = (fun (_ u : String) => u) "https://www.themanufacturer.com/channel/s" s) ∧
    (∀ u ∈ sectionCandidates (fun _ u => u)
      ⟨"https://www.themanufacturer.com/channel/s", [], [],
        ["/articles/a1", "/articles/a2", "/articles/a3", "/articles/a4",
         "/articles/a5", "/articles/a6"], none, none, none⟩,
      (fun (_ : String) => false) u = false) ∧
    6 ≤ (sectionCandidates (fun _ u => u)
      ⟨"https://www.themanufacturer.com/channel/s", [], [],
        ["/articles/a1", "/articles/a2", "/articles/a3", "/articles/a4",
         "/articles/a5", "/articles/a6"], none, none, none⟩).length ∧
    ((parse_section (fun _ u => u) (fun _ => false)
      ⟨"https://www.themanufacturer.com/channel/s", [], [],
        ["/articles/a1", "/articles/a2", "/articles/a3", "/articles/a4",
         "/articles/a5", "/articles/a6"], none, none, none⟩
      (some "https://www.themanufacturer.com/channel/s") 0).filterMap
        articleUrlOf).length = 5 ∧
    (∀ rq ∈ parse_section (fun _ u => u) (fun _ => false)
      ⟨"https://www.themanufacturer.com/channel/s", [], [],
        ["/articles/a1", "/articles/a2", "/articles/a3", "/articles/a4",
         "/articles/a5", "/articles/a6"], none, none, none⟩
      (some "https://www.themanufacturer.com/channel/s") 0,
      isListingRequest rq = false) :=
  by
  have hlen : 6 ≤ (sectionCandidates (fun _ u => u)
      ⟨"https://www.themanufacturer.com/channel/s", [], [],
        ["/articles/a1", "/articles/a2", "/articles/a3", "/articles/a4",
         "/articles/a5", "/articles/a6"], none, none, none⟩).length := by
    simp only [sectionCandidates, pySortedSet]
    rw [(List.perm_insertionSort _ _).length_eq]
    decide
  have happ := c1_first_page_dispatch (fun _ u => u) (fun _ => false)
    ⟨"https://www.themanufacturer.com/channel/s", [], [],
      ["/articles/a1", "/articles/a2", "/articles/a3", "/articles/a4",
       "/articles/a5", "/articles/a6"], none, none, none⟩
    (some "https://www.themanufacturer.com/channel/s")
    (fun _ => rfl) (fun u _ => rfl) hlen
  exact ⟨fun _ => rfl, fun u _ => rfl, hlen, happ.1, happ.2.2.2⟩

/-- C2: when the admitted count after a listing page is still below 5, the
controller paginates iff the `or`-chain of the three "next" selectors (in
that priority order) yields a truthy link: if so, it issues exactly one
listing request for the resolved next page carrying the same `section_url`
and the updated count; if not, it issues no listing request. -/
theorem c2_pagination (urljoin : String → String → String)
    (seen : String → Bool) (resp : SectionResponse) (su : Option String)
    (c : Nat)
    (hlt : c + (dispatchedOf urljoin seen resp c).length < 5) :
    (∀ np, nextPageOf resp = some np → np ≠ "" →
      (parse_section urljoin seen resp su c).filter isListingRequest
        = [Request.listing (urljoin resp.url np) su
            (c + (dispatchedOf urljoin seen resp c).length)]) ∧
    (optTruthy (nextPageOf resp) = false →
      (parse_section urljoin seen resp su c).filter isListingRequest = []) := by
  have hfilter : (parse_section urljoin seen resp su c).filter isListingRequest
      = (paginationOf urljoin seen resp su c).filter isListingRequest := by
    unfold parse_section
    rw [List.filter_append, mkArticleReqs_filter_listing, List.nil_append]
  constructor
  · intro np hnp hne
    rw [hfilter]
    unfold paginationOf
    rw [if_pos hlt, hnp]
    dsimp only
    rw [if_neg hne]
    rfl
  · intro htr
    rw [hfilter]
    unfold paginationOf
    rw [if_pos hlt]
    cases hnp : nextPageOf resp with
    | none => rfl
    | some s =>
      rw [hnp] at htr
      have hs : s = "" := by
        simpa [optTruthy] using htr
      dsimp only
      rw [if_pos hs]
      rfl

/-- C2 witness: an empty listing page (count stays 0) with an explicit
next-class link; and one with no next link at all. -/
theorem c2_pagination_witness :
    0 + (dispatchedOf (fun _ u => u) (fun _ => false)
      ⟨"https://www.themanufacturer.com/channel/s", [], [], [],
        some "/channel/s/page/2", none, none⟩ 0).length < 5 ∧
    (parse_section (fun _ u => u) (fun _ => false)
      ⟨"https://www.themanufacturer.com/channel/s", [], [], [],
        some "/channel/s/page/2", none, none⟩
      (some "https://www.themanufacturer.com/channel/s") 0).filter
        isListingRequest
      = [Request.listing "/channel/s/page/2"
          (some "https://www.themanufacturer.com/channel/s") 0] ∧
    (parse_section (fun _ u => u) (fun _ => false)
      ⟨"https://www.themanufacturer.com/channel/s", [], [], [],
        none, none, none⟩
      (some "https://www.themanufacturer.com/channel/s") 0).filter
        isListingRequest = [] := by
  refine ⟨by decide, ?_, ?_⟩
  · exact (c2_pagination (fun _ u => u) (fun _ => false)
      ⟨"https://www.themanufacturer.com/channel/s", [], [], [],
        some "/channel/s/page/2", none, none⟩
      (some "https://www.themanufacturer.com/channel/s") 0 (by decide)).1
      "/channel/s/page/2" (by decide) (by decide)
  · exact (c2_pagination (fun _ u => u) (fun _ => false)
      ⟨"https://www.themanufacturer.com/channel/s", [], [], [],
        none, none, none⟩
      (some "https://www.themanufacturer.com/channel/s") 0 (by decide)).2
      (by decide)
